import Mathlib

/-!
Verification of the Soulseek album & playlist downloader
(`albumandplaylist.py`), shallowly embedded in Lean 4.

Strings are modelled as `List Char`; the filesystem as an association
list from destination path to file size; the network collaborator
(search + transfer) as pure functions supplied by a mock; polling waits
collapse, since the collaborator is deterministic.  Every emitted
progress print and every collaborator call is recorded in an event
trace so that counting properties can be stated.
-/

namespace SlskDl

/-- A catalog track (class `Track` of `albumandplaylist.py`):
`sid`, `name`, `artist`, optional `album`, whether some source has
type `album`, and the playlist names among its sources. -/
structure Track where
  sid : List Char
  name : List Char
  artist : List Char
  album : Option (List Char)
  albumSource : Bool
  playlists : List (List Char)
deriving DecidableEq, Repr

/-- One search result peer (`aioslsk` result object as used by the code):
username, optional average speed, and the shared filenames. -/
structure PeerResult where
  username : List Char
  avgSpeed : Option Nat
  sharedItems : List (List Char)
deriving DecidableEq, Repr

/-- Outcome of one `client.transfers.download` call, as observed through
the polling loops of the code: which size (if any) ends up written at
the destination path, and whether `is_transfered()` became true in time. -/
structure TransferResult where
  written : Option Nat
  completed : Bool
deriving DecidableEq, Repr

/-- The mocked network collaborator: `searches.search` (results after the
poll wait) and `transfers.download` keyed by username, remote filename and
destination path. -/
structure Collab where
  searchFn : List Char → List PeerResult
  transferFn : List Char → List Char → List Char → TransferResult

/-- Configuration of the `Downloader` constructor: output directory,
target extension, minimum valid file size (default 1000) and maximum
attempts (default 3). -/
structure Config where
  outdir : List Char
  ext : List Char
  minFilesize : Nat
  maxAttempts : Nat

/-- Mutable state of a run: the filesystem (newest write first) and the
`handled_albums` / `handled_playlists` sets of the `Downloader`. -/
structure DLState where
  fs : List (List Char × Nat)
  handledAlbums : List (Option (List Char))
  handledPlaylists : List (List Char)
deriving DecidableEq, Repr

/-- Observable events of a run: collaborator calls, pass starts,
backoff sleeps and per-track progress prints. -/
inductive Event where
  | searchEv : List Char → Event
  | transferEv : List Char → List Char → List Char → Event
  | passStart : List Char → Event
  | sleepBackoff : Event
  | reportDone : List Char → Event
  | reportCached : List Char → Event
  | reportFailed : List Char → Event
  | incompleteAlbum : Event
deriving DecidableEq, Repr

/-- `sanitize` of the code: strip the characters `\ / : * ? " < > |`. -/
def sanitize (text : List Char) : List Char :=
  text.filter (fun c => !(c = '\\' || c = '/' || c = ':' || c = '*' ||
    c = '?' || c = '"' || c = '<' || c = '>' || c = '|'))

/-- Python's `str.lower()` on the character list. -/
def toLowerL (text : List Char) : List Char :=
  text.map Char.toLower

/-- Normalization applied to both sides of the name match:
sanitize, then lower-case. -/
def normalize (text : List Char) : List Char :=
  toLowerL (sanitize text)

/-- Python's substring containment (`needle in hay`) on character lists. -/
def listSubstr (needle : List Char) : List Char → Bool
  | [] => needle.isEmpty
  | c :: rest => needle.isPrefixOf (c :: rest) || listSubstr needle rest

/-- `sanitize(track.name).lower() in sanitize(item.filename).lower()`. -/
def matchesName (trackName filename : List Char) : Bool :=
  listSubstr (normalize trackName) (normalize filename)

/-- Python's `str.endswith(suffix)` on character lists. -/
def listEndsWith (l suffix : List Char) : Bool :=
  suffix.isSuffixOf l

/-- `item.filename.lower().endswith("." + ext)`: the filename is
lower-cased, the configured extension is used verbatim. -/
def hasTargetExt (ext filename : List Char) : Bool :=
  listEndsWith (toLowerL filename) ('.' :: ext)

/-- Modelled from the spec: the fully case-insensitive extension check
(`hasExtension`) that lower-cases both the filename and the configured
extension, for comparison with the code's check. -/
def ciHasExt (ext filename : List Char) : Bool :=
  listEndsWith (toLowerL filename) ('.' :: toLowerL ext)

/-- The sort key `r.avg_speed or 0`. -/
def speedKey (p : PeerResult) : Nat :=
  p.avgSpeed.getD 0

/-- Insert into a descending-sorted list, before the first element of
smaller-or-equal key (so earlier input elements stay ahead on ties). -/
def insDesc (key : PeerResult → Nat) (a : PeerResult) : List PeerResult → List PeerResult
  | [] => [a]
  | b :: l => if key b ≤ key a then a :: b :: l else b :: insDesc key a l

/-- Stable descending sort by key, modelling Python's
`sorted(results, key=lambda r: r.avg_speed or 0, reverse=True)`
(a stable sort is uniquely determined by its key order and stability). -/
def sortDesc (key : PeerResult → Nat) : List PeerResult → List PeerResult
  | [] => []
  | x :: xs => insDesc key x (sortDesc key xs)

/-- `rankPeers`: peers in descending order of average speed, missing
speed as 0, stable on ties. -/
def rankPeers (results : List PeerResult) : List PeerResult :=
  sortDesc speedKey results

/-- Python `f"{x}"` on the optional album string. -/
def pyStr : Option (List Char) → List Char
  | some a => a
  | none => ['N', 'o', 'n', 'e']

/-- Python truthiness of `track.album` (`None` and `""` are falsy). -/
def albTruthy : Option (List Char) → Bool
  | some (_ :: _) => true
  | _ => false

/-- Destination path for a track id:
`os.path.join(outdir, f"{sid}.{ext}")`. -/
def destOfSid (cfg : Config) (sid : List Char) : List Char :=
  cfg.outdir ++ '/' :: (sid ++ '.' :: cfg.ext)

/-- Destination path of a track. -/
def destOf (cfg : Config) (t : Track) : List Char :=
  destOfSid cfg t.sid

/-- Filesystem lookup (newest write wins). -/
def fsGet : List (List Char × Nat) → List Char → Option Nat
  | [], _ => none
  | (k, v) :: rest, d => if k = d then some v else fsGet rest d

/-- `os.path.exists(dest) and os.path.getsize(dest) >= min_filesize`. -/
def fileOk (cfg : Config) (fs : List (List Char × Nat)) (d : List Char) : Bool :=
  match fsGet fs d with
  | some n => decide (cfg.minFilesize ≤ n)
  | none => false

/-- One `client.transfers.download` call plus the polling that follows
(file appearance; completion; size check).  Returns the updated state,
the transfer event and whether the `try` block reached `return True`. -/
def doTransfer (cfg : Config) (collab : Collab) (user file dest : List Char)
    (s : DLState) : DLState × List Event × Bool :=
  let r := collab.transferFn user file dest
  let fs' := match r.written with
    | some n => (dest, n) :: s.fs
    | none => s.fs
  let ok := r.completed && (match r.written with
    | some n => decide (cfg.minFilesize ≤ n)
    | none => false)
  ({ s with fs := fs' }, [Event.transferEv user file dest], ok)

/-- Inner item loop of `Downloader.download_file`: first peer item with
the target extension is downloaded; on failure, continue with the next. -/
def fileItems (cfg : Config) (collab : Collab) (user dest : List Char) :
    List (List Char) → DLState → DLState × List Event × Bool
  | [], s => (s, [], false)
  | f :: rest, s =>
    if hasTargetExt cfg.ext f then
      let r1 := doTransfer cfg collab user f dest s
      if r1.2.2 then (r1.1, r1.2.1, true)
      else
        let r2 := fileItems cfg collab user dest rest r1.1
        (r2.1, r1.2.1 ++ r2.2.1, r2.2.2)
    else fileItems cfg collab user dest rest s

/-- Peer loop of `Downloader.download_file`. -/
def filePeers (cfg : Config) (collab : Collab) (dest : List Char) :
    List PeerResult → DLState → DLState × List Event × Bool
  | [], s => (s, [], false)
  | p :: ps, s =>
    let r1 := fileItems cfg collab p.username dest p.sharedItems s
    if r1.2.2 then (r1.1, r1.2.1, true)
    else
      let r2 := filePeers cfg collab dest ps r1.1
      (r2.1, r1.2.1 ++ r2.2.1, r2.2.2)

/-- `Downloader.download_file`: one search, one pass over the ranked
peers; `True` iff some transfer completed with a valid size. -/
def downloadFile (cfg : Config) (collab : Collab) (query dest : List Char)
    (s : DLState) : DLState × List Event × Bool :=
  let r := filePeers cfg collab dest (rankPeers (collab.searchFn query)) s
  (r.1, Event.searchEv query :: Event.passStart dest :: r.2.1, r.2.2)

/-- Item loop of one attempt of
`Downloader.search_album_and_download_track`: on a name match, the
cache is consulted first, then a transfer is tried. -/
def albumTrackItems (cfg : Config) (collab : Collab) (track : Track)
    (user : List Char) :
    List (List Char) → DLState → DLState × List Event × Bool
  | [], s => (s, [], false)
  | f :: rest, s =>
    if hasTargetExt cfg.ext f && matchesName track.name f then
      let dest := destOf cfg track
      if fileOk cfg s.fs dest then (s, [Event.reportCached track.sid], true)
      else
        let r1 := doTransfer cfg collab user f dest s
        if r1.2.2 then (r1.1, r1.2.1 ++ [Event.reportDone track.sid], true)
        else
          let r2 := albumTrackItems cfg collab track user rest r1.1
          (r2.1, r1.2.1 ++ r2.2.1, r2.2.2)
    else albumTrackItems cfg collab track user rest s

/-- Peer loop of one attempt of `search_album_and_download_track`. -/
def albumTrackPeers (cfg : Config) (collab : Collab) (track : Track) :
    List PeerResult → DLState → DLState × List Event × Bool
  | [], s => (s, [], false)
  | p :: ps, s =>
    let r1 := albumTrackItems cfg collab track p.username p.sharedItems s
    if r1.2.2 then (r1.1, r1.2.1, true)
    else
      let r2 := albumTrackPeers cfg collab track ps r1.1
      (r2.1, r1.2.1 ++ r2.2.1, r2.2.2)

/-- Attempt loop of `search_album_and_download_track`: up to
`max_attempts` passes over the same ranked peers, a 1-second sleep after
each unsuccessful pass, a final `Failed` print when exhausted. -/
def albumAttempts (cfg : Config) (collab : Collab) (track : Track)
    (peers : List PeerResult) :
    Nat → DLState → DLState × List Event × Bool
  | 0, s => (s, [Event.reportFailed track.sid], false)
  | n + 1, s =>
    let r1 := albumTrackPeers cfg collab track peers s
    if r1.2.2 then (r1.1, Event.passStart (destOf cfg track) :: r1.2.1, true)
    else
      let r2 := albumAttempts cfg collab track peers n r1.1
      (r2.1, Event.passStart (destOf cfg track) :: r1.2.1 ++
        Event.sleepBackoff :: r2.2.1, r2.2.2)

/-- `Downloader.search_album_and_download_track`: search once for
`sanitize(f"{track.album} {track.artist}")`, then the attempt loop. -/
def searchAlbumTrack (cfg : Config) (collab : Collab) (track : Track)
    (s : DLState) : DLState × List Event × Bool :=
  let query := sanitize (pyStr track.album ++ ' ' :: track.artist)
  let r := albumAttempts cfg collab track (rankPeers (collab.searchFn query))
    cfg.maxAttempts s
  (r.1, Event.searchEv query :: r.2.1, r.2.2)

/-- Body of the per-track loop of `Downloader.download_playlist`:
cache check, album-context search if `track.album` is truthy, then the
individual-search fallback. -/
def playlistTrackStep (cfg : Config) (collab : Collab) (s : DLState)
    (track : Track) : DLState × List Event :=
  let dest := destOf cfg track
  if fileOk cfg s.fs dest then (s, [])
  else
    let r1 := if albTruthy track.album then searchAlbumTrack cfg collab track s
      else (s, [], false)
    if r1.2.2 then (r1.1, r1.2.1)
    else
      let q := sanitize (track.name ++ ' ' :: track.artist)
      let r2 := downloadFile cfg collab q dest r1.1
      (r2.1, r1.2.1 ++ r2.2.1 ++
        [if r2.2.2 then Event.reportDone track.sid
         else Event.reportFailed track.sid])

/-- The per-track loop of `download_playlist`. -/
def playlistLoop (cfg : Config) (collab : Collab) :
    List Track → DLState → DLState × List Event
  | [], s => (s, [])
  | t :: ts, s =>
    let r1 := playlistTrackStep cfg collab s t
    let r2 := playlistLoop cfg collab ts r1.1
    (r2.1, r1.2 ++ r2.2)

/-- `Downloader.download_playlist`: no-op if the playlist name was
already handled, otherwise record it and process each track. -/
def downloadPlaylist (cfg : Config) (collab : Collab) (name : List Char)
    (tracks : List Track) (s : DLState) : DLState × List Event :=
  if name ∈ s.handledPlaylists then (s, [])
  else playlistLoop cfg collab tracks
    { s with handledPlaylists := name :: s.handledPlaylists }

/-- One track considered against one album-pass file (`download_album`
inner loop body): cache check, then transfer.  The Bool says whether the
track was removed from `remaining` (satisfied). -/
def albumVisit (cfg : Config) (collab : Collab) (user file : List Char)
    (t : Track) (s : DLState) : DLState × List Event × Bool :=
  let dest := destOf cfg t
  if fileOk cfg s.fs dest then (s, [Event.reportCached t.sid], true)
  else
    let r1 := doTransfer cfg collab user file dest s
    if r1.2.2 then (r1.1, r1.2.1 ++ [Event.reportDone t.sid], true)
    else (r1.1, r1.2.1 ++ [Event.reportFailed t.sid], false)

/-- The `for track in remaining` loop of `download_album` for one shared
file, with Python's remove-during-iteration semantics: removing the
current element makes the iterator skip the element after it (it stays
in the list but is not visited for this file).  `acc` holds the elements
already passed over; the returned list is the new `remaining`. -/
def visitTracks (cfg : Config) (collab : Collab) (user file : List Char) :
    List Track → List Track → DLState → DLState × List Event × List Track
  | acc, [], s => (s, [], acc)
  | acc, t :: rest, s =>
    if matchesName t.name file then
      let r1 := albumVisit cfg collab user file t s
      if r1.2.2 then
        match rest with
        | [] => (r1.1, r1.2.1, acc)
        | u :: rest' =>
          let r2 := visitTracks cfg collab user file (acc ++ [u]) rest' r1.1
          (r2.1, r1.2.1 ++ r2.2.1, r2.2.2)
      else
        let r2 := visitTracks cfg collab user file (acc ++ [t]) rest r1.1
        (r2.1, r1.2.1 ++ r2.2.1, r2.2.2)
    else visitTracks cfg collab user file (acc ++ [t]) rest s

/-- The `for item in peer.shared_items` loop of `download_album`:
files without the target extension are skipped. -/
def visitItems (cfg : Config) (collab : Collab) (user : List Char) :
    List (List Char) → List Track → DLState → DLState × List Event × List Track
  | [], remaining, s => (s, [], remaining)
  | f :: rest, remaining, s =>
    if hasTargetExt cfg.ext f then
      let r1 := visitTracks cfg collab user f [] remaining s
      let r2 := visitItems cfg collab user rest r1.2.2 r1.1
      (r2.1, r1.2.1 ++ r2.2.1, r2.2.2)
    else visitItems cfg collab user rest remaining s

/-- The peer loop of `download_album`: each peer starts from the full
`missing` list (`remaining = list(missing)`); if some peer leaves
nothing remaining the function returns early (Bool = early return),
skipping the incomplete-album fallback. -/
def peerLoop (cfg : Config) (collab : Collab) (missing : List Track) :
    List PeerResult → DLState → DLState × List Event × Bool
  | [], s => (s, [], false)
  | p :: ps, s =>
    let r1 := visitItems cfg collab p.username p.sharedItems missing s
    if r1.2.2.isEmpty then (r1.1, r1.2.1, true)
    else
      let r2 := peerLoop cfg collab missing ps r1.1
      (r2.1, r1.2.1 ++ r2.2.1, r2.2.2)

/-- The fixed playlist name used by the incomplete-album fallback. -/
def iafName : List Char :=
  ['I', 'n', 'c', 'o', 'm', 'p', 'l', 'e', 't', 'e', ' ',
   'A', 'l', 'b', 'u', 'm', ' ', 'F', 'a', 'l', 'l', 'b', 'a', 'c', 'k']

/-- The fallback loop of `download_album`: each originally missing track
is passed to `download_playlist` as a one-track playlist under the fixed
name `"Incomplete Album Fallback"`. -/
def fallbackLoop (cfg : Config) (collab : Collab) :
    List Track → DLState → DLState × List Event
  | [], s => (s, [])
  | t :: ts, s =>
    let r1 := downloadPlaylist cfg collab iafName [t] s
    let r2 := fallbackLoop cfg collab ts r1.1
    (r2.1, r1.2 ++ r2.2)

/-- `Downloader.download_album`: guard on `handled_albums`, compute the
missing tracks, search once, run the peer loop, and fall back to
individual handling of the missing tracks when peers are exhausted. -/
def downloadAlbum (cfg : Config) (collab : Collab) (album : Option (List Char))
    (artist : List Char) (tracks : List Track) (s : DLState) :
    DLState × List Event :=
  if album ∈ s.handledAlbums then (s, [])
  else
    let s0 := { s with handledAlbums := album :: s.handledAlbums }
    let missing := tracks.filter (fun t => !fileOk cfg s0.fs (destOf cfg t))
    if missing.isEmpty then (s0, [])
    else
      let query := sanitize (pyStr album ++ ' ' :: artist)
      let r1 := peerLoop cfg collab missing
        (rankPeers (collab.searchFn query)) s0
      if r1.2.2 then (r1.1, Event.searchEv query :: r1.2.1)
      else
        let r2 := fallbackLoop cfg collab missing r1.1
        (r2.1, Event.searchEv query :: r1.2.1 ++ Event.incompleteAlbum :: r2.2)

/-- First-occurrence-order deduplication (iteration order of a Python
dict built by insertion). -/
def dedupFirst {α : Type} [DecidableEq α] : List α → List α
  | [] => []
  | x :: xs => x :: (dedupFirst xs).filter (fun y => !decide (y = x))

/-- Album keys of `album_map` in insertion order (`main`). -/
def albumKeys (tracks : List Track) : List (Option (List Char)) :=
  dedupFirst ((tracks.filter (·.albumSource)).map (·.album))

/-- The tracks appended under one album key (`album_map[key]`). -/
def albumGroup (tracks : List Track) (k : Option (List Char)) : List Track :=
  tracks.filter (fun t => t.albumSource && decide (t.album = k))

/-- Playlist keys of `playlist_map` in insertion order (`main`). -/
def playlistKeys (tracks : List Track) : List (List Char) :=
  dedupFirst ((tracks.map (·.playlists)).flatten)

/-- The tracks appended under one playlist key, once per occurrence of
the key among the track's sources (`playlist_map[key]`). -/
def playlistGroup (tracks : List Track) (k : List Char) : List Track :=
  (tracks.map (fun t =>
    (t.playlists.filter (fun p => decide (p = k))).map (fun _ => t))).flatten

/-- The album phase of `main`: `download_album` per album key, with the
artist taken from the first track of the group. -/
def albumPhase (cfg : Config) (collab : Collab) (tracks : List Track) :
    List (Option (List Char)) → DLState → DLState × List Event
  | [], s => (s, [])
  | k :: ks, s =>
    let r1 := match albumGroup tracks k with
      | [] => (s, [])
      | t0 :: g => downloadAlbum cfg collab k t0.artist (t0 :: g) s
    let r2 := albumPhase cfg collab tracks ks r1.1
    (r2.1, r1.2 ++ r2.2)

/-- The playlist phase of `main`: `download_playlist` per playlist key. -/
def playlistPhase (cfg : Config) (collab : Collab) (tracks : List Track) :
    List (List Char) → DLState → DLState × List Event
  | [], s => (s, [])
  | k :: ks, s =>
    let r1 := downloadPlaylist cfg collab k (playlistGroup tracks k) s
    let r2 := playlistPhase cfg collab tracks ks r1.1
    (r2.1, r1.2 ++ r2.2)

/-- The `Downloader` construction of `main`: `min_filesize` and
`max_attempts` keep their defaults 1000 and 3. -/
def mainConfig (outdir ext : List Char) : Config :=
  ⟨outdir, ext, 1000, 3⟩

/-- A full run of `main` on a catalog: albums first, then playlists,
starting from empty handled sets and a given initial filesystem. -/
def mainRun (outdir ext : List Char) (collab : Collab) (tracks : List Track)
    (fs0 : List (List Char × Nat)) : DLState × List Event :=
  let cfg := mainConfig outdir ext
  let r1 := albumPhase cfg collab tracks (albumKeys tracks) ⟨fs0, [], []⟩
  let r2 := playlistPhase cfg collab tracks (playlistKeys tracks) r1.1
  (r2.1, r1.2 ++ r2.2)

/-! ### Event counting and run predicates -/

/-- Is this event a transfer initiation targeting destination `d`? -/
def isTransferTo (d : List Char) : Event → Bool
  | Event.transferEv _ _ d' => decide (d' = d)
  | _ => false

/-- Number of transfer initiations targeting destination `d`. -/
def cntT (d : List Char) (evs : List Event) : Nat :=
  evs.countP (isTransferTo d)

/-- Is this event a transfer initiation of remote file `f`? -/
def isTransferOf (f : List Char) : Event → Bool
  | Event.transferEv _ f' _ => decide (f' = f)
  | _ => false

/-- Number of transfer initiations of remote file `f`. -/
def cntF (f : List Char) (evs : List Event) : Nat :=
  evs.countP (isTransferOf f)

/-- Is this event the start of a pass over the ranked peers for
destination `d`? -/
def isPassFor (d : List Char) : Event → Bool
  | Event.passStart d' => decide (d' = d)
  | _ => false

/-- Number of top-level acquisition passes for destination `d`. -/
def cntPass (d : List Char) (evs : List Event) : Nat :=
  evs.countP (isPassFor d)

/-- Is this event a backoff sleep? -/
def isBackoff : Event → Bool
  | Event.sleepBackoff => true
  | _ => false

/-- Number of backoff sleeps. -/
def cntBk (evs : List Event) : Nat :=
  evs.countP isBackoff

/-- Does this event report a track as done or cached? -/
def isDC : Event → Bool
  | Event.reportDone _ => true
  | Event.reportCached _ => true
  | _ => false

/-- Is this event anything other than a transfer initiation? -/
def nonTransfer : Event → Bool
  | Event.transferEv _ _ _ => false
  | _ => true

/-- Track `sid` was reported `Completed` or `CompletedCached`. -/
def doneOrCached (sid : List Char) (evs : List Event) : Prop :=
  Event.reportDone sid ∈ evs ∨ Event.reportCached sid ∈ evs

/-- The trace contains no done/cached report at all. -/
def noDC (evs : List Event) : Prop :=
  ∀ e ∈ evs, isDC e = false

/-- Every done/cached report in the trace concerns track `sid`. -/
def dcOnly (sid : List Char) (evs : List Event) : Prop :=
  ∀ sid', doneOrCached sid' evs → sid' = sid

/-- A collaborator whose transfers always complete with a valid size. -/
def alwaysSucceeds (cfg : Config) (collab : Collab) : Prop :=
  ∀ u f d, (collab.transferFn u f d).completed = true ∧
    ∃ n, (collab.transferFn u f d).written = some n ∧ cfg.minFilesize ≤ n

/-- The canonical always-failing collaborator behaviour: no file ever
appears and no transfer ever completes. -/
def alwaysFails (collab : Collab) : Prop :=
  ∀ u f d, collab.transferFn u f d = ⟨none, false⟩

/-- Transfer-count contract of a state transition (used for the
at-most-one-download invariant): per destination, at most one transfer
is initiated, none if the destination is already valid, and a valid
destination stays valid; an initiated transfer leaves it valid. -/
def GoodPair (cfg : Config) (fs fs' : List (List Char × Nat))
    (evs : List Event) : Prop :=
  ∀ d, cntT d evs ≤ 1 ∧
    (fileOk cfg fs d = true → cntT d evs = 0) ∧
    (fileOk cfg fs d = true → fileOk cfg fs' d = true) ∧
    (1 ≤ cntT d evs → fileOk cfg fs' d = true)

/-- Every track reported done/cached in the trace so far has a valid
destination file in the filesystem `fs`. -/
def HistOk (cfg : Config) (fs : List (List Char × Nat))
    (E : List Event) : Prop :=
  ∀ sid, doneOrCached sid E → fileOk cfg fs (destOfSid cfg sid) = true

/-! ### Concrete mock inputs used by witnesses and counterexamples -/

/-- The configuration `main` builds: output directory `out`,
extension `mp3`, defaults 1000 and 3. -/
def cfgC : Config := mainConfig ['o', 'u', 't'] ['m', 'p', '3']

/-- The empty initial state. -/
def emptyS : DLState := ⟨[], [], []⟩

/-- A track without an album. -/
def tSolo : Track :=
  ⟨['t', '3'], ['s', 'o', 'l', 'o'], ['a', 'r', 't'], none, false, []⟩

/-- A track with an album. -/
def tAlb : Track :=
  ⟨['t', '4'], ['s', 'o', 'l', 'o'], ['a', 'r', 't'],
   some ['a', 'l', 'b'], true, []⟩

/-- A peer sharing a file that matches `tSolo`/`tAlb` by name. -/
def peerSolo : PeerResult :=
  ⟨['u'], none, [['s', 'o', 'l', 'o', '.', 'm', 'p', '3']]⟩

/-- A collaborator that finds `peerSolo` and always fails transfers. -/
def collabFail : Collab := ⟨fun _ => [peerSolo], fun _ _ _ => ⟨none, false⟩⟩

/-- Album track `alpha` (id `t1`). -/
def tAlpha : Track :=
  ⟨['t', '1'], ['a', 'l', 'p', 'h', 'a'], ['a', 'r', 't'],
   some ['a', 'l', 'b'], true, []⟩

/-- Album track `beta` (id `t2`). -/
def tBeta : Track :=
  ⟨['t', '2'], ['b', 'e', 't', 'a'], ['a', 'r', 't'],
   some ['a', 'l', 'b'], true, []⟩

/-- A peer sharing only a file matching no track name. -/
def peerZ : PeerResult :=
  ⟨['u'], none, [['z', 'z', 'z', '.', 'm', 'p', '3']]⟩

/-- A collaborator that finds `peerZ` and always fails transfers. -/
def collabZ : Collab := ⟨fun _ => [peerZ], fun _ _ _ => ⟨none, false⟩⟩

/-- A shared filename matching both `tAlpha` and `tBeta`. -/
def fileAB : List Char :=
  ['a', 'l', 'p', 'h', 'a', ' ', 'b', 'e', 't', 'a', '.', 'm', 'p', '3']

/-- A peer offering `fileAB`. -/
def peerAB : PeerResult := ⟨['u'], none, [fileAB]⟩

/-- A collaborator that finds `peerAB` and always fails transfers. -/
def collabAB : Collab := ⟨fun _ => [peerAB], fun _ _ _ => ⟨none, false⟩⟩

/-- A peer offering a file matching `alpha`. -/
def peerOK : PeerResult :=
  ⟨['u'], some 9, [['a', 'l', 'p', 'h', 'a', '.', 'm', 'p', '3']]⟩

/-- A collaborator that finds `peerOK` and always succeeds, writing
5000 bytes. -/
def collabOK : Collab := ⟨fun _ => [peerOK], fun _ _ _ => ⟨some 5000, true⟩⟩

/-- A track named `alpha` referenced by both an album and a playlist. -/
def tDual : Track :=
  ⟨['d', '1'], ['a', 'l', 'p', 'h', 'a'], ['a', 'r', 't'],
   some ['a', 'l', 'b'], true, [['P']]⟩

/-- The album run used to exhibit the fallback bug: both tracks are
missing, no shared file matches, transfers always fail. -/
def c1run : DLState × List Event :=
  downloadAlbum cfgC collabZ (some ['a', 'l', 'b']) ['a', 'r', 't']
    [tAlpha, tBeta] emptyS

/-- The album-level peer pass used for the file-assignment
counterexample: both missing tracks match the one shared file. -/
def c6run : DLState × List Event × Bool :=
  peerLoop cfgC collabAB [tAlpha, tBeta] [peerAB] emptyS

/-- Speed-5 peer for the ranking example. -/
def pr5 : PeerResult := ⟨['a'], some 5, []⟩

/-- Unknown-speed peer for the ranking example. -/
def prN : PeerResult := ⟨['b'], none, []⟩

/-- Speed-20 peer for the ranking example. -/
def pr20 : PeerResult := ⟨['c'], some 20, []⟩

/-! ## Peer ranking: sortedness, permutation, stability -/

theorem insDesc_perm (key : PeerResult → Nat) (a : PeerResult) :
    ∀ l : List PeerResult, List.Perm (insDesc key a l) (a :: l) := by
  intro l
  induction l with
  | nil => simp [insDesc]
  | cons b l ih =>
    simp only [insDesc]
    split
    · exact List.Perm.refl _
    · exact (List.Perm.cons b ih).trans (List.Perm.swap a b l)

theorem sortDesc_perm (key : PeerResult → Nat) :
    ∀ l : List PeerResult, List.Perm (sortDesc key l) l := by
  intro l
  induction l with
  | nil => simp [sortDesc]
  | cons x xs ih =>
    exact (insDesc_perm key x (sortDesc key xs)).trans (List.Perm.cons x ih)

theorem mem_insDesc {key : PeerResult → Nat} {a x : PeerResult}
    {l : List PeerResult} (h : x ∈ insDesc key a l) : x = a ∨ x ∈ l := by
  have := (insDesc_perm key a l).mem_iff.mp h
  simpa using this

theorem pairwise_insDesc {key : PeerResult → Nat} {a : PeerResult}
    {l : List PeerResult}
    (h : l.Pairwise (fun x y => key y ≤ key x)) :
    (insDesc key a l).Pairwise (fun x y => key y ≤ key x) := by
  induction l with
  | nil => simp [insDesc]
  | cons b l ih =>
    rw [List.pairwise_cons] at h
    simp only [insDesc]
    split
    · rename_i hba
      rw [List.pairwise_cons]
      refine ⟨?_, List.pairwise_cons.mpr h⟩
      intro x hx
      rcases List.mem_cons.mp hx with rfl | hx
      · exact hba
      · exact le_trans (h.1 x hx) hba
    · rename_i hba
      rw [List.pairwise_cons]
      refine ⟨?_, ih h.2⟩
      intro x hx
      rcases mem_insDesc hx with rfl | hx
      · omega
      · exact h.1 x hx

theorem sortDesc_sorted (key : PeerResult → Nat) :
    ∀ l : List PeerResult,
      (sortDesc key l).Pairwise (fun x y => key y ≤ key x) := by
  intro l
  induction l with
  | nil => simp [sortDesc]
  | cons x xs ih => exact pairwise_insDesc ih

theorem filter_insDesc_pos {key : PeerResult → Nat} {a : PeerResult}
    {k : Nat} (h : key a = k) (l : List PeerResult) :
    (insDesc key a l).filter (fun x => decide (key x = k)) =
      a :: l.filter (fun x => decide (key x = k)) := by
  induction l with
  | nil => simp [insDesc, h]
  | cons b l ih =>
    simp only [insDesc]
    split
    · simp [h]
    · rename_i hba
      have hbk : ¬ (key b = k) := by omega
      simp [hbk, ih]

theorem filter_insDesc_neg {key : PeerResult → Nat} {a : PeerResult}
    {k : Nat} (h : ¬ key a = k) (l : List PeerResult) :
    (insDesc key a l).filter (fun x => decide (key x = k)) =
      l.filter (fun x => decide (key x = k)) := by
  induction l with
  | nil => simp [insDesc, h]
  | cons b l ih =>
    simp only [insDesc]
    split
    · simp [h]
    · by_cases hbk : key b = k <;> simp [hbk, ih]

theorem filter_sortDesc (key : PeerResult → Nat) (k : Nat) :
    ∀ l : List PeerResult,
      (sortDesc key l).filter (fun x => decide (key x = k)) =
        l.filter (fun x => decide (key x = k)) := by
  intro l
  induction l with
  | nil => simp [sortDesc]
  | cons x xs ih =>
    simp only [sortDesc]
    by_cases hx : key x = k
    · rw [filter_insDesc_pos hx, ih]
      simp [hx]
    · rw [filter_insDesc_neg hx, ih]
      simp [hx]

/-- C7: peer ranking returns the peers in descending order of average
speed with missing speed treated as 0 (`r.avg_speed or 0`), is a
permutation of the input, is stable with respect to input order on ties
(the subsequence of any fixed key is unchanged), and ranks speeds
`[5, null, 20]` as `[20, 5, null]`. -/
theorem rankPeers_desc_stable (l : List PeerResult) :
    (rankPeers l).Pairwise (fun a b => speedKey b ≤ speedKey a) ∧
    List.Perm (rankPeers l) l ∧
    (∀ k, (rankPeers l).filter (fun p => decide (speedKey p = k)) =
      l.filter (fun p => decide (speedKey p = k))) ∧
    rankPeers [pr5, prN, pr20] = [pr20, pr5, prN] := by
  refine ⟨sortDesc_sorted speedKey l, sortDesc_perm speedKey l,
    fun k => filter_sortDesc speedKey k l, by decide⟩

/-! ## Name matching and extension checks -/

/-- C8 counterexample: with the code's normalization (strip
`\ / : * ? " < > |`, lower-case), `"Song Name"` is not a substring of
`"Song_Name (Remix)-128kbps.mp3"` — the underscore is neither stripped
nor turned into a space, so the claimed example is false. -/
theorem matches_underscore_false :
    matchesName ['S', 'o', 'n', 'g', ' ', 'N', 'a', 'm', 'e']
      ['S', 'o', 'n', 'g', '_', 'N', 'a', 'm', 'e', ' ', '(', 'R', 'e',
       'm', 'i', 'x', ')', '-', '1', '2', '8', 'k', 'b', 'p', 's', '.',
       'm', 'p', '3'] = false := by decide

/-- C8 amended: `matchesName` returns true iff the normalized track name
(strip the filesystem-unsafe characters, lower-case) is a substring of
the equally normalized filename; the spec's underscore example only
holds when the filename separates the words with a space, and
`"Other.mp3"` does not match `"Song Name"`. -/
theorem matchesName_spec :
    (∀ nm f, matchesName nm f = listSubstr (normalize nm) (normalize f)) ∧
    matchesName ['S', 'o', 'n', 'g', ' ', 'N', 'a', 'm', 'e']
      ['S', 'o', 'n', 'g', ' ', 'N', 'a', 'm', 'e', ' ', '(', 'R', 'e',
       'm', 'i', 'x', ')', '-', '1', '2', '8', 'k', 'b', 'p', 's', '.',
       'm', 'p', '3'] = true ∧
    matchesName ['S', 'o', 'n', 'g', ' ', 'N', 'a', 'm', 'e']
      ['O', 't', 'h', 'e', 'r', '.', 'm', 'p', '3'] = false := by
  refine ⟨fun nm f => rfl, by decide, by decide⟩

/-- C9 counterexample: with a configured extension `MP3` the filename
`song.mp3` is rejected by the code's check (only the filename is
lower-cased), while the fully case-insensitive check of the claim
accepts it. -/
theorem extCheck_counterexample :
    hasTargetExt ['M', 'P', '3'] ['s', 'o', 'n', 'g', '.', 'm', 'p', '3'] = false ∧
    ciHasExt ['M', 'P', '3'] ['s', 'o', 'n', 'g', '.', 'm', 'p', '3'] = true := by
  exact ⟨by decide, by decide⟩

/-- C9 amended: the extension check lower-cases only the filename and
compares against `"." + ext` verbatim; it therefore ignores case in the
filename, and agrees with the fully case-insensitive check exactly when
the configured extension is already lower-case. -/
theorem extCheck_spec :
    (∀ ext f, hasTargetExt ext f = listEndsWith (toLowerL f) ('.' :: ext)) ∧
    (∀ ext f, toLowerL ext = ext → hasTargetExt ext f = ciHasExt ext f) := by
  refine ⟨fun ext f => rfl, fun ext f h => ?_⟩
  unfold ciHasExt hasTargetExt
  rw [h]

/-- Witness for the amended C9 theorem at a concrete lower-case
extension and mixed-case filename. -/
theorem extCheck_spec_witness :
    toLowerL ['m', 'p', '3'] = ['m', 'p', '3'] ∧
    hasTargetExt ['m', 'p', '3'] ['a', '.', 'M', 'P', '3'] =
      ciHasExt ['m', 'p', '3'] ['a', '.', 'M', 'P', '3'] := by
  exact ⟨by decide,
    extCheck_spec.2 ['m', 'p', '3'] ['a', '.', 'M', 'P', '3'] (by decide)⟩

/-! ## Preservation of the handled-albums / handled-playlists sets -/

theorem hs_fileItems (cfg : Config) (collab : Collab) (user dest : List Char) :
    ∀ (items : List (List Char)) (s : DLState),
      (fileItems cfg collab user dest items s).1.handledAlbums = s.handledAlbums ∧
      (fileItems cfg collab user dest items s).1.handledPlaylists = s.handledPlaylists := by
  intro items
  induction items with
  | nil => intro s; exact ⟨rfl, rfl⟩
  | cons f rest ih =>
    intro s
    simp only [fileItems]
    split
    · split
      · exact ⟨rfl, rfl⟩
      · exact ⟨(ih _).1, (ih _).2⟩
    · exact ⟨(ih _).1, (ih _).2⟩

theorem hs_filePeers (cfg : Config) (collab : Collab) (dest : List Char) :
    ∀ (ps : List PeerResult) (s : DLState),
      (filePeers cfg collab dest ps s).1.handledAlbums = s.handledAlbums ∧
      (filePeers cfg collab dest ps s).1.handledPlaylists = s.handledPlaylists := by
  intro ps
  induction ps with
  | nil => intro s; exact ⟨rfl, rfl⟩
  | cons p ps ih =>
    intro s
    simp only [filePeers]
    split
    · exact ⟨(hs_fileItems cfg collab p.username dest p.sharedItems s).1,
        (hs_fileItems cfg collab p.username dest p.sharedItems s).2⟩
    · refine ⟨((ih _).1).trans (hs_fileItems cfg collab _ _ _ _).1,
        ((ih _).2).trans (hs_fileItems cfg collab _ _ _ _).2⟩

theorem hs_downloadFile (cfg : Config) (collab : Collab) (query dest : List Char)
    (s : DLState) :
    (downloadFile cfg collab query dest s).1.handledAlbums = s.handledAlbums ∧
    (downloadFile cfg collab query dest s).1.handledPlaylists = s.handledPlaylists :=
  hs_filePeers cfg collab dest _ s

theorem hs_albumTrackItems (cfg : Config) (collab : Collab) (track : Track)
    (user : List Char) :
    ∀ (items : List (List Char)) (s : DLState),
      (albumTrackItems cfg collab track user items s).1.handledAlbums = s.handledAlbums ∧
      (albumTrackItems cfg collab track user items s).1.handledPlaylists = s.handledPlaylists := by
  intro items
  induction items with
  | nil => intro s; exact ⟨rfl, rfl⟩
  | cons f rest ih =>
    intro s
    simp only [albumTrackItems]
    split
    · split
      · exact ⟨rfl, rfl⟩
      · split
        · exact ⟨rfl, rfl⟩
        · exact ⟨(ih _).1, (ih _).2⟩
    · exact ⟨(ih _).1, (ih _).2⟩

theorem hs_albumTrackPeers (cfg : Config) (collab : Collab) (track : Track) :
    ∀ (ps : List PeerResult) (s : DLState),
      (albumTrackPeers cfg collab track ps s).1.handledAlbums = s.handledAlbums ∧
      (albumTrackPeers cfg collab track ps s).1.handledPlaylists = s.handledPlaylists := by
  intro ps
  induction ps with
  | nil => intro s; exact ⟨rfl, rfl⟩
  | cons p ps ih =>
    intro s
    simp only [albumTrackPeers]
    split
    · exact ⟨(hs_albumTrackItems cfg collab track p.username p.sharedItems s).1,
        (hs_albumTrackItems cfg collab track p.username p.sharedItems s).2⟩
    · refine ⟨((ih _).1).trans (hs_albumTrackItems cfg collab track _ _ _).1,
        ((ih _).2).trans (hs_albumTrackItems cfg collab track _ _ _).2⟩

theorem hs_albumAttempts (cfg : Config) (collab : Collab) (track : Track)
    (peers : List PeerResult) :
    ∀ (n : Nat) (s : DLState),
      (albumAttempts cfg collab track peers n s).1.handledAlbums = s.handledAlbums ∧
      (albumAttempts cfg collab track peers n s).1.handledPlaylists = s.handledPlaylists := by
  intro n
  induction n with
  | zero => intro s; exact ⟨rfl, rfl⟩
  | succ n ih =>
    intro s
    simp only [albumAttempts]
    split
    · exact ⟨(hs_albumTrackPeers cfg collab track peers s).1,
        (hs_albumTrackPeers cfg collab track peers s).2⟩
    · refine ⟨((ih _).1).trans (hs_albumTrackPeers cfg collab track peers s).1,
        ((ih _).2).trans (hs_albumTrackPeers cfg collab track peers s).2⟩

theorem hs_searchAlbumTrack (cfg : Config) (collab : Collab) (track : Track)
    (s : DLState) :
    (searchAlbumTrack cfg collab track s).1.handledAlbums = s.handledAlbums ∧
    (searchAlbumTrack cfg collab track s).1.handledPlaylists = s.handledPlaylists :=
  hs_albumAttempts cfg collab track _ cfg.maxAttempts s

theorem hs_playlistTrackStep (cfg : Config) (collab : Collab) (s : DLState)
    (track : Track) :
    (playlistTrackStep cfg collab s track).1.handledAlbums = s.handledAlbums ∧
    (playlistTrackStep cfg collab s track).1.handledPlaylists = s.handledPlaylists := by
  by_cases h0 : fileOk cfg s.fs (destOf cfg track) = true
  · simp [playlistTrackStep, h0]
  · rw [Bool.not_eq_true] at h0
    by_cases ha : albTruthy track.album = true
    · by_cases hok : (searchAlbumTrack cfg collab track s).2.2 = true
      · simp only [playlistTrackStep, h0, ha, hok, Bool.false_eq_true,
          if_false, if_true]
        exact hs_searchAlbumTrack cfg collab track s
      · rw [Bool.not_eq_true] at hok
        simp only [playlistTrackStep, h0, ha, hok, Bool.false_eq_true,
          if_false, if_true]
        exact ⟨((hs_downloadFile cfg collab _ _ _).1).trans
            (hs_searchAlbumTrack cfg collab track s).1,
          ((hs_downloadFile cfg collab _ _ _).2).trans
            (hs_searchAlbumTrack cfg collab track s).2⟩
    · rw [Bool.not_eq_true] at ha
      simp only [playlistTrackStep, h0, ha, Bool.false_eq_true, if_false]
      exact hs_downloadFile cfg collab _ _ _

theorem hs_playlistLoop (cfg : Config) (collab : Collab) :
    ∀ (ts : List Track) (s : DLState),
      (playlistLoop cfg collab ts s).1.handledAlbums = s.handledAlbums ∧
      (playlistLoop cfg collab ts s).1.handledPlaylists = s.handledPlaylists := by
  intro ts
  induction ts with
  | nil => intro s; exact ⟨rfl, rfl⟩
  | cons t ts ih =>
    intro s
    simp only [playlistLoop]
    exact ⟨((ih _).1).trans (hs_playlistTrackStep cfg collab s t).1,
      ((ih _).2).trans (hs_playlistTrackStep cfg collab s t).2⟩

theorem hs_downloadPlaylist_albums (cfg : Config) (collab : Collab)
    (name : List Char) (ts : List Track) (s : DLState) :
    (downloadPlaylist cfg collab name ts s).1.handledAlbums = s.handledAlbums := by
  by_cases hg : name ∈ s.handledPlaylists
  · simp [downloadPlaylist, hg]
  · simp only [downloadPlaylist, if_neg hg]
    exact (hs_playlistLoop cfg collab ts _).1

theorem hp_downloadPlaylist_mem (cfg : Config) (collab : Collab)
    (name : List Char) (ts : List Track) (s : DLState) :
    name ∈ (downloadPlaylist cfg collab name ts s).1.handledPlaylists := by
  by_cases hg : name ∈ s.handledPlaylists
  · simp [downloadPlaylist, hg]
  · simp only [downloadPlaylist, if_neg hg]
    rw [(hs_playlistLoop cfg collab ts _).2]
    exact List.mem_cons_self _ _

theorem hp_downloadPlaylist_sub (cfg : Config) (collab : Collab)
    (name : List Char) (ts : List Track) (s : DLState) :
    s.handledPlaylists ⊆ (downloadPlaylist cfg collab name ts s).1.handledPlaylists := by
  by_cases hg : name ∈ s.handledPlaylists
  · simp [downloadPlaylist, hg]
  · simp only [downloadPlaylist, if_neg hg]
    rw [(hs_playlistLoop cfg collab ts _).2]
    exact fun x hx => List.mem_cons_of_mem _ hx

theorem hs_albumVisit (cfg : Config) (collab : Collab) (user file : List Char)
    (t : Track) (s : DLState) :
    (albumVisit cfg collab user file t s).1.handledAlbums = s.handledAlbums ∧
    (albumVisit cfg collab user file t s).1.handledPlaylists = s.handledPlaylists := by
  simp only [albumVisit]
  split
  · exact ⟨rfl, rfl⟩
  · split
    · exact ⟨rfl, rfl⟩
    · exact ⟨rfl, rfl⟩

theorem hs_visitTracks (cfg : Config) (collab : Collab) (user file : List Char) :
    ∀ (n : Nat) (suffix acc : List Track) (s : DLState), suffix.length ≤ n →
      (visitTracks cfg collab user file acc suffix s).1.handledAlbums = s.handledAlbums ∧
      (visitTracks cfg collab user file acc suffix s).1.handledPlaylists = s.handledPlaylists := by
  intro n
  induction n with
  | zero =>
    intro suffix acc s hlen
    cases suffix with
    | nil => exact ⟨rfl, rfl⟩
    | cons t rest => simp at hlen
  | succ n ih =>
    intro suffix acc s hlen
    cases suffix with
    | nil => exact ⟨rfl, rfl⟩
    | cons t rest =>
      simp only [visitTracks]
      by_cases hm : matchesName t.name file = true
      · simp only [hm, if_true]
        by_cases hr : (albumVisit cfg collab user file t s).2.2 = true
        · simp only [hr, if_true]
          cases rest with
          | nil => exact hs_albumVisit cfg collab user file t s
          | cons u rest' =>
            have h1 := hs_albumVisit cfg collab user file t s
            have h2 := ih rest' (acc ++ [u]) (albumVisit cfg collab user file t s).1
              (by simp at hlen ⊢; omega)
            exact ⟨h2.1.trans h1.1, h2.2.trans h1.2⟩
        · rw [Bool.not_eq_true] at hr
          simp only [hr, Bool.false_eq_true, if_false]
          have h1 := hs_albumVisit cfg collab user file t s
          have h2 := ih rest (acc ++ [t]) (albumVisit cfg collab user file t s).1
            (by simp at hlen ⊢; omega)
          exact ⟨h2.1.trans h1.1, h2.2.trans h1.2⟩
      · rw [Bool.not_eq_true] at hm
        simp only [hm, Bool.false_eq_true, if_false]
        exact ih rest (acc ++ [t]) s (by simp at hlen ⊢; omega)

theorem hs_visitItems (cfg : Config) (collab : Collab) (user : List Char) :
    ∀ (items : List (List Char)) (remaining : List Track) (s : DLState),
      (visitItems cfg collab user items remaining s).1.handledAlbums = s.handledAlbums ∧
      (visitItems cfg collab user items remaining s).1.handledPlaylists = s.handledPlaylists := by
  intro items
  induction items with
  | nil => intro remaining s; exact ⟨rfl, rfl⟩
  | cons f rest ih =>
    intro remaining s
    simp only [visitItems]
    split
    · have h1 := hs_visitTracks cfg collab user f remaining.length remaining [] s
        (Nat.le_refl _)
      exact ⟨((ih _ _).1).trans h1.1, ((ih _ _).2).trans h1.2⟩
    · exact ih remaining s

theorem hs_peerLoop (cfg : Config) (collab : Collab) (missing : List Track) :
    ∀ (ps : List PeerResult) (s : DLState),
      (peerLoop cfg collab missing ps s).1.handledAlbums = s.handledAlbums ∧
      (peerLoop cfg collab missing ps s).1.handledPlaylists = s.handledPlaylists := by
  intro ps
  induction ps with
  | nil => intro s; exact ⟨rfl, rfl⟩
  | cons p ps ih =>
    intro s
    simp only [peerLoop]
    split
    · exact hs_visitItems cfg collab p.username p.sharedItems missing s
    · exact ⟨((ih _).1).trans (hs_visitItems cfg collab _ _ _ _).1,
        ((ih _).2).trans (hs_visitItems cfg collab _ _ _ _).2⟩

theorem hs_fallbackLoop_albums (cfg : Config) (collab : Collab) :
    ∀ (ts : List Track) (s : DLState),
      (fallbackLoop cfg collab ts s).1.handledAlbums = s.handledAlbums := by
  intro ts
  induction ts with
  | nil => intro s; rfl
  | cons t ts ih =>
    intro s
    simp only [fallbackLoop]
    exact (ih _).trans (hs_downloadPlaylist_albums cfg collab iafName [t] s)

theorem hp_fallbackLoop_sub (cfg : Config) (collab : Collab) :
    ∀ (ts : List Track) (s : DLState),
      s.handledPlaylists ⊆ (fallbackLoop cfg collab ts s).1.handledPlaylists := by
  intro ts
  induction ts with
  | nil => intro s; exact fun x hx => hx
  | cons t ts ih =>
    intro s
    simp only [fallbackLoop]
    exact fun x hx =>
      ih _ (hp_downloadPlaylist_sub cfg collab iafName [t] s hx)

theorem hp_fallbackLoop_iaf (cfg : Config) (collab : Collab)
    (t : Track) (ts : List Track) (s : DLState) :
    iafName ∈ (fallbackLoop cfg collab (t :: ts) s).1.handledPlaylists := by
  simp only [fallbackLoop]
  exact hp_fallbackLoop_sub cfg collab ts _
    (hp_downloadPlaylist_mem cfg collab iafName [t] s)

theorem downloadAlbum_mem_handled (cfg : Config) (collab : Collab)
    (album : Option (List Char)) (artist : List Char) (tracks : List Track)
    (s : DLState) :
    album ∈ (downloadAlbum cfg collab album artist tracks s).1.handledAlbums := by
  by_cases hg : album ∈ s.handledAlbums
  · simp [downloadAlbum, hg]
  · simp only [downloadAlbum, if_neg hg]
    split
    · exact List.mem_cons_self _ _
    · split
      · rw [(hs_peerLoop cfg collab _ _ _).1]
        exact List.mem_cons_self _ _
      · rw [hs_fallbackLoop_albums cfg collab _ _,
          (hs_peerLoop cfg collab _ _ _).1]
        exact List.mem_cons_self _ _

/-- C5: album acquisition is attempted at most once per process run per
album name: a second `download_album` call with the same album name (for
any artist and track list) returns the state unchanged with an empty
event trace — in this model every search or transfer collaborator call
emits an event, so the second call performs none. -/
theorem downloadAlbum_idempotent (cfg : Config) (collab : Collab)
    (album : Option (List Char)) (artist artist' : List Char)
    (tracks tracks' : List Track) (s : DLState) :
    downloadAlbum cfg collab album artist' tracks'
        (downloadAlbum cfg collab album artist tracks s).1 =
      ((downloadAlbum cfg collab album artist tracks s).1, []) := by
  have hmem := downloadAlbum_mem_handled cfg collab album artist tracks s
  rw [downloadAlbum, if_pos hmem]

theorem ia_albumVisit (cfg : Config) (collab : Collab) (user file : List Char)
    (t : Track) (s : DLState) :
    Event.incompleteAlbum ∉ (albumVisit cfg collab user file t s).2.1 := by
  simp only [albumVisit, doTransfer]
  split
  · simp
  · split <;> simp

theorem ia_visitTracks (cfg : Config) (collab : Collab) (user file : List Char) :
    ∀ (n : Nat) (suffix acc : List Track) (s : DLState), suffix.length ≤ n →
      Event.incompleteAlbum ∉ (visitTracks cfg collab user file acc suffix s).2.1 := by
  intro n
  induction n with
  | zero =>
    intro suffix acc s hlen
    cases suffix with
    | nil => simp [visitTracks]
    | cons t rest => simp at hlen
  | succ n ih =>
    intro suffix acc s hlen
    cases suffix with
    | nil => simp [visitTracks]
    | cons t rest =>
      simp only [visitTracks]
      by_cases hm : matchesName t.name file = true
      · simp only [hm, if_true]
        by_cases hr : (albumVisit cfg collab user file t s).2.2 = true
        · simp only [hr, if_true]
          cases rest with
          | nil => exact ia_albumVisit cfg collab user file t s
          | cons u rest' =>
            simp only [List.mem_append]
            push_neg
            exact ⟨ia_albumVisit cfg collab user file t s,
              ih rest' (acc ++ [u]) _ (by simp at hlen ⊢; omega)⟩
        · rw [Bool.not_eq_true] at hr
          simp only [hr, Bool.false_eq_true, if_false, List.mem_append]
          push_neg
          exact ⟨ia_albumVisit cfg collab user file t s,
            ih rest (acc ++ [t]) _ (by simp at hlen ⊢; omega)⟩
      · rw [Bool.not_eq_true] at hm
        simp only [hm, Bool.false_eq_true, if_false]
        exact ih rest (acc ++ [t]) s (by simp at hlen ⊢; omega)

theorem ia_visitItems (cfg : Config) (collab : Collab) (user : List Char) :
    ∀ (items : List (List Char)) (remaining : List Track) (s : DLState),
      Event.incompleteAlbum ∉ (visitItems cfg collab user items remaining s).2.1 := by
  intro items
  induction items with
  | nil => intro remaining s; simp [visitItems]
  | cons f rest ih =>
    intro remaining s
    simp only [visitItems]
    split
    · simp only [List.mem_append]
      push_neg
      exact ⟨ia_visitTracks cfg collab user f remaining.length remaining [] s
        (Nat.le_refl _), ih _ _⟩
    · exact ih remaining s

theorem ia_peerLoop (cfg : Config) (collab : Collab) (missing : List Track) :
    ∀ (ps : List PeerResult) (s : DLState),
      Event.incompleteAlbum ∉ (peerLoop cfg collab missing ps s).2.1 := by
  intro ps
  induction ps with
  | nil => intro s; simp [peerLoop]
  | cons p ps ih =>
    intro s
    simp only [peerLoop]
    split
    · exact ia_visitItems cfg collab p.username p.sharedItems missing s
    · simp only [List.mem_append]
      push_neg
      exact ⟨ia_visitItems cfg collab p.username p.sharedItems missing s, ih _⟩

/-- C10: once `download_playlist` has run for a name, every later call
with that name — with any track list — returns the state unchanged and
performs nothing; and whenever an album run reaches the incomplete-album
fallback (the `incompleteAlbum` event), the single fixed name
`"Incomplete Album Fallback"` ends up in `handled_playlists`, so the
fallback name is shared across all albums of the run. -/
theorem playlistOnce_fixedFallbackName :
    (∀ (cfg : Config) (collab : Collab) (name : List Char)
      (ts ts' : List Track) (s : DLState),
      downloadPlaylist cfg collab name ts'
          (downloadPlaylist cfg collab name ts s).1 =
        ((downloadPlaylist cfg collab name ts s).1, [])) ∧
    (∀ (cfg : Config) (collab : Collab) (album : Option (List Char))
      (artist : List Char) (tracks : List Track) (s : DLState),
      Event.incompleteAlbum ∈ (downloadAlbum cfg collab album artist tracks s).2 →
      iafName ∈ (downloadAlbum cfg collab album artist tracks s).1.handledPlaylists) := by
  constructor
  · intro cfg collab name ts ts' s
    have hmem := hp_downloadPlaylist_mem cfg collab name ts s
    rw [downloadPlaylist, if_pos hmem]
  · intro cfg collab album artist tracks s hia
    by_cases hg : album ∈ s.handledAlbums
    · rw [downloadAlbum, if_pos hg] at hia
      simp at hia
    · rw [downloadAlbum, if_neg hg] at hia ⊢
      simp only at hia ⊢
      split at hia
      · simp at hia
      · rename_i hne
        split at hia <;> rename_i hearly
        · rw [List.mem_cons] at hia
          rcases hia with h | h

          · exact absurd h (by simp)
          · exact absurd h (ia_peerLoop cfg collab _ _ _)
        · simp only [hne, if_neg, hearly]
          rcases hmiss : tracks.filter
              (fun t => !fileOk cfg
                { s with handledAlbums := album :: s.handledAlbums }.fs
                (destOf cfg t)) with _ | ⟨t, ts'⟩
          · rw [hmiss] at hne
            simp at hne
          · rw [hmiss] at hne hearly ⊢
            exact hp_fallbackLoop_iaf cfg collab t ts' _

/-- Witness for C10 at a concrete incomplete-album run. -/
theorem playlistOnce_fixedFallbackName_witness :
    Event.incompleteAlbum ∈ (downloadAlbum cfgC collabZ (some ['a', 'l', 'b'])
        ['a', 'r', 't'] [tAlpha, tBeta] emptyS).2 ∧
    iafName ∈ (downloadAlbum cfgC collabZ (some ['a', 'l', 'b'])
        ['a', 'r', 't'] [tAlpha, tBeta] emptyS).1.handledPlaylists :=
  ⟨by decide, playlistOnce_fixedFallbackName.2 cfgC collabZ
    (some ['a', 'l', 'b']) ['a', 'r', 't'] [tAlpha, tBeta] emptyS (by decide)⟩

/-- C1, evaluated at the failing input: an album with two missing tracks
whose album pass satisfies neither.  Only the first missing track is
re-queued through the individual-search path (three album-context passes
plus one individual pass) and reported; the second missing track gets no
individual pass and no report at all, because the fallback's fixed
playlist name is already in `handled_playlists` after the first track. -/
theorem albumFallback_dropsLaterTracks :
    cntPass (destOf cfgC tAlpha) c1run.2 = 4 ∧
    Event.reportFailed tAlpha.sid ∈ c1run.2 ∧
    cntPass (destOf cfgC tBeta) c1run.2 = 0 ∧
    Event.reportFailed tBeta.sid ∉ c1run.2 ∧
    Event.reportDone tBeta.sid ∉ c1run.2 ∧
    Event.reportCached tBeta.sid ∉ c1run.2 := by decide

/-- C6 counterexample: during an album-level peer pass, one shared file
matching two still-unsatisfied missing tracks is transferred twice —
once per matching track — so "at most one transfer is initiated for
that file, and no other missing track is assigned the same file" fails. -/
theorem albumPass_fileAssignedTwice :
    cntF fileAB c6run.2.1 = 2 ∧
    Event.transferEv ['u'] fileAB (destOf cfgC tAlpha) ∈ c6run.2.1 ∧
    Event.transferEv ['u'] fileAB (destOf cfgC tBeta) ∈ c6run.2.1 ∧
    ¬ (cntF fileAB c6run.2.1 ≤ 1) := by decide

theorem albumVisit_assigned (cfg : Config) (collab : Collab)
    (user file : List Char) (t : Track) (s : DLState) :
    Event.reportCached t.sid ∈ (albumVisit cfg collab user file t s).2.1 ∨
    Event.transferEv user file (destOf cfg t) ∈ (albumVisit cfg collab user file t s).2.1 := by
  simp only [albumVisit, doTransfer]
  split
  · left; simp
  · split
    · right; simp
    · right; simp

/-- C6 amended: during an album-level pass, each extension-matching
shared file is offered to every matching track the (removal-skipping)
iteration visits — so several missing tracks can be assigned the same
file — but the first still-unsatisfied missing track whose normalized
name is a substring of the normalized filename is always assigned the
file: it is either reported cached or a transfer of exactly this file to
its destination is initiated. -/
theorem albumPass_firstMatchAssigned (cfg : Config) (collab : Collab)
    (user file : List Char) :
    ∀ (n : Nat) (suffix acc : List Track) (s : DLState), suffix.length ≤ n →
      ∀ t0, suffix.find? (fun t => matchesName t.name file) = some t0 →
      Event.reportCached t0.sid ∈ (visitTracks cfg collab user file acc suffix s).2.1 ∨
      Event.transferEv user file (destOf cfg t0) ∈
        (visitTracks cfg collab user file acc suffix s).2.1 := by
  intro n
  induction n with
  | zero =>
    intro suffix acc s hlen t0 hfind
    cases suffix with
    | nil => simp at hfind
    | cons t rest => simp at hlen
  | succ n ih =>
    intro suffix acc s hlen t0 hfind
    cases suffix with
    | nil => simp at hfind
    | cons t rest =>
      by_cases hm : matchesName t.name file = true
      · rw [List.find?_cons] at hfind
        simp only [hm] at hfind
        rw [Option.some_inj] at hfind
        subst hfind
        simp only [visitTracks, hm, if_true]
        by_cases hr : (albumVisit cfg collab user file t s).2.2 = true
        · simp only [hr, if_true]
          cases rest with
          | nil => exact albumVisit_assigned cfg collab user file t s
          | cons u rest' =>
            rcases albumVisit_assigned cfg collab user file t s with h | h
            · left; simp only [List.mem_append]; exact Or.inl h
            · right; simp only [List.mem_append]; exact Or.inl h
        · rw [Bool.not_eq_true] at hr
          simp only [hr, Bool.false_eq_true, if_false]
          rcases albumVisit_assigned cfg collab user file t s with h | h
          · left; simp only [List.mem_append]; exact Or.inl h
          · right; simp only [List.mem_append]; exact Or.inl h
      · rw [Bool.not_eq_true] at hm
        rw [List.find?_cons] at hfind
        simp only [hm] at hfind
        simp only [visitTracks, hm, Bool.false_eq_true, if_false]
        exact ih rest (acc ++ [t]) s (by simp at hlen ⊢; omega) t0 hfind

/-- Witness for the amended C6 theorem: with two missing tracks both
matching the shared file, the first (`tAlpha`) is assigned the file. -/
theorem albumPass_firstMatchAssigned_witness :
    ([tAlpha, tBeta].length ≤ 2 ∧
      [tAlpha, tBeta].find? (fun t => matchesName t.name fileAB) = some tAlpha) ∧
    (Event.reportCached tAlpha.sid ∈
        (visitTracks cfgC collabAB ['u'] fileAB [] [tAlpha, tBeta] emptyS).2.1 ∨
      Event.transferEv ['u'] fileAB (destOf cfgC tAlpha) ∈
        (visitTracks cfgC collabAB ['u'] fileAB [] [tAlpha, tBeta] emptyS).2.1) :=
  ⟨⟨by decide, by decide⟩,
    albumPass_firstMatchAssigned cfgC collabAB ['u'] fileAB 2 [tAlpha, tBeta]
      [] emptyS (by decide) tAlpha (by decide)⟩

/-! ## Event-count helpers -/

theorem cntPass_append (d : List Char) (a b : List Event) :
    cntPass d (a ++ b) = cntPass d a + cntPass d b := by
  simp [cntPass, List.countP_append]

theorem cntBk_append (a b : List Event) :
    cntBk (a ++ b) = cntBk a + cntBk b := by
  simp [cntBk, List.countP_append]

theorem cntT_append (d : List Char) (a b : List Event) :
    cntT d (a ++ b) = cntT d a + cntT d b := by
  simp [cntT, List.countP_append]

theorem cntPass_cons (d : List Char) (e : Event) (evs : List Event) :
    cntPass d (e :: evs) = cntPass d evs + (if isPassFor d e then 1 else 0) :=
  List.countP_cons _ _ _

theorem cntBk_cons (e : Event) (evs : List Event) :
    cntBk (e :: evs) = cntBk evs + (if isBackoff e then 1 else 0) :=
  List.countP_cons _ _ _

theorem cntT_cons (d : List Char) (e : Event) (evs : List Event) :
    cntT d (e :: evs) = cntT d evs + (if isTransferTo d e then 1 else 0) :=
  List.countP_cons _ _ _

theorem isPassFor_of_transfer {d : List Char} {e : Event}
    (h : nonTransfer e = false) : isPassFor d e = false := by
  cases e <;> simp_all [nonTransfer, isPassFor]

theorem isBackoff_of_transfer {e : Event}
    (h : nonTransfer e = false) : isBackoff e = false := by
  cases e <;> simp_all [nonTransfer, isBackoff]

theorem cntPass_zero_of_transfers {evs : List Event}
    (h : ∀ e ∈ evs, nonTransfer e = false) (d : List Char) :
    cntPass d evs = 0 := by
  rw [cntPass, List.countP_eq_zero]
  intro e he
  simp [isPassFor_of_transfer (h e he)]

theorem cntBk_zero_of_transfers {evs : List Event}
    (h : ∀ e ∈ evs, nonTransfer e = false) :
    cntBk evs = 0 := by
  rw [cntBk, List.countP_eq_zero]
  intro e he
  simp [isBackoff_of_transfer (h e he)]

/-! ## Behaviour under an always-failing collaborator -/

theorem af_doTransfer (cfg : Config) {collab : Collab}
    (h : alwaysFails collab) (u f d : List Char) (s : DLState) :
    doTransfer cfg collab u f d s = (s, [Event.transferEv u f d], false) := by
  simp [doTransfer, h u f d]

theorem af_fileItems (cfg : Config) {collab : Collab}
    (h : alwaysFails collab) (user dest : List Char) :
    ∀ (items : List (List Char)) (s : DLState),
      (fileItems cfg collab user dest items s).1 = s ∧
      (fileItems cfg collab user dest items s).2.2 = false ∧
      ∀ e ∈ (fileItems cfg collab user dest items s).2.1, nonTransfer e = false := by
  intro items
  induction items with
  | nil => intro s; exact ⟨rfl, rfl, by simp [fileItems]⟩
  | cons f rest ih =>
    intro s
    simp only [fileItems, af_doTransfer cfg h user f dest s, Bool.false_eq_true,
      if_false]
    split
    · refine ⟨(ih s).1, (ih s).2.1, ?_⟩
      intro e he
      rw [List.mem_append] at he
      rcases he with he | he
      · rw [List.mem_singleton] at he
        subst he
        rfl
      · exact (ih s).2.2 e he
    · exact ih s

theorem af_filePeers (cfg : Config) {collab : Collab}
    (h : alwaysFails collab) (dest : List Char) :
    ∀ (ps : List PeerResult) (s : DLState),
      (filePeers cfg collab dest ps s).1 = s ∧
      (filePeers cfg collab dest ps s).2.2 = false ∧
      ∀ e ∈ (filePeers cfg collab dest ps s).2.1, nonTransfer e = false := by
  intro ps
  induction ps with
  | nil => intro s; exact ⟨rfl, rfl, by simp [filePeers]⟩
  | cons p ps ih =>
    intro s
    have hi := af_fileItems cfg h p.username dest p.sharedItems s
    simp only [filePeers, hi.2.1, Bool.false_eq_true, if_false, hi.1]
    refine ⟨(ih s).1, (ih s).2.1, ?_⟩
    intro e he
    rw [List.mem_append] at he
    rcases he with he | he
    · exact hi.2.2 e he
    · exact (ih s).2.2 e he

theorem af_downloadFile (cfg : Config) {collab : Collab}
    (h : alwaysFails collab) (query dest : List Char) (s : DLState) :
    (downloadFile cfg collab query dest s).1 = s ∧
    (downloadFile cfg collab query dest s).2.2 = false ∧
    cntPass dest (downloadFile cfg collab query dest s).2.1 = 1 ∧
    cntBk (downloadFile cfg collab query dest s).2.1 = 0 := by
  have hp := af_filePeers cfg h dest (rankPeers (collab.searchFn query)) s
  refine ⟨hp.1, hp.2.1, ?_, ?_⟩
  · simp only [downloadFile]
    rw [cntPass_cons, cntPass_cons, cntPass_zero_of_transfers hp.2.2 dest]
    simp [isPassFor]
  · simp only [downloadFile]
    rw [cntBk_cons, cntBk_cons, cntBk_zero_of_transfers hp.2.2]
    simp [isBackoff]

theorem af_albumTrackItems (cfg : Config) {collab : Collab}
    (h : alwaysFails collab) (track : Track) (user : List Char) (s : DLState)
    (hnc : fileOk cfg s.fs (destOf cfg track) = false) :
    ∀ items : List (List Char),
      (albumTrackItems cfg collab track user items s).1 = s ∧
      (albumTrackItems cfg collab track user items s).2.2 = false ∧
      ∀ e ∈ (albumTrackItems cfg collab track user items s).2.1,
        nonTransfer e = false := by
  intro items
  induction items with
  | nil => exact ⟨rfl, rfl, by simp [albumTrackItems]⟩
  | cons f rest ih =>
    simp only [albumTrackItems]
    split
    · simp only [hnc, Bool.false_eq_true, if_false,
        af_doTransfer cfg h user f (destOf cfg track) s]
      refine ⟨ih.1, ih.2.1, ?_⟩
      intro e he
      rw [List.mem_append] at he
      rcases he with he | he
      · rw [List.mem_singleton] at he
        subst he
        rfl
      · exact ih.2.2 e he
    · exact ih

theorem af_albumTrackPeers (cfg : Config) {collab : Collab}
    (h : alwaysFails collab) (track : Track) (s : DLState)
    (hnc : fileOk cfg s.fs (destOf cfg track) = false) :
    ∀ ps : List PeerResult,
      (albumTrackPeers cfg collab track ps s).1 = s ∧
      (albumTrackPeers cfg collab track ps s).2.2 = false ∧
      ∀ e ∈ (albumTrackPeers cfg collab track ps s).2.1,
        nonTransfer e = false := by
  intro ps
  induction ps with
  | nil => exact ⟨rfl, rfl, by simp [albumTrackPeers]⟩
  | cons p ps ih =>
    have hi := af_albumTrackItems cfg h track p.username s hnc p.sharedItems
    simp only [albumTrackPeers, hi.2.1, Bool.false_eq_true, if_false, hi.1]
    refine ⟨ih.1, ih.2.1, ?_⟩
    intro e he
    rw [List.mem_append] at he
    rcases he with he | he
    · exact hi.2.2 e he
    · exact ih.2.2 e he

theorem af_albumAttempts (cfg : Config) {collab : Collab}
    (h : alwaysFails collab) (track : Track) (peers : List PeerResult)
    (s : DLState) (hnc : fileOk cfg s.fs (destOf cfg track) = false) :
    ∀ n : Nat,
      (albumAttempts cfg collab track peers n s).1 = s ∧
      (albumAttempts cfg collab track peers n s).2.2 = false ∧
      cntPass (destOf cfg track) (albumAttempts cfg collab track peers n s).2.1 = n ∧
      cntBk (albumAttempts cfg collab track peers n s).2.1 = n ∧
      Event.reportFailed track.sid ∈ (albumAttempts cfg collab track peers n s).2.1 := by
  intro n
  induction n with
  | zero =>
    refine ⟨rfl, rfl, by simp [albumAttempts, cntPass, isPassFor],
      by simp [albumAttempts, cntBk, isBackoff], by simp [albumAttempts]⟩
  | succ n ih =>
    have hp := af_albumTrackPeers cfg h track s hnc peers
    simp only [albumAttempts, hp.2.1, Bool.false_eq_true, if_false, hp.1]
    refine ⟨ih.1, ih.2.1, ?_, ?_, ?_⟩
    · rw [cntPass_append, cntPass_cons, cntPass_cons,
        cntPass_zero_of_transfers hp.2.2, ih.2.2.1]
      simp [isPassFor]
      omega
    · rw [cntBk_append, cntBk_cons, cntBk_cons,
        cntBk_zero_of_transfers hp.2.2, ih.2.2.2.1]
      simp [isBackoff]
    · exact List.mem_append_right _ (List.mem_cons_of_mem _ ih.2.2.2.2)

theorem af_searchAlbumTrack (cfg : Config) {collab : Collab}
    (h : alwaysFails collab) (track : Track) (s : DLState)
    (hnc : fileOk cfg s.fs (destOf cfg track) = false) :
    (searchAlbumTrack cfg collab track s).1 = s ∧
    (searchAlbumTrack cfg collab track s).2.2 = false ∧
    cntPass (destOf cfg track) (searchAlbumTrack cfg collab track s).2.1 =
      cfg.maxAttempts ∧
    cntBk (searchAlbumTrack cfg collab track s).2.1 = cfg.maxAttempts ∧
    Event.reportFailed track.sid ∈ (searchAlbumTrack cfg collab track s).2.1 := by
  have ha := af_albumAttempts cfg h track
    (rankPeers (collab.searchFn (sanitize (pyStr track.album ++ ' ' :: track.artist))))
    s hnc cfg.maxAttempts
  simp only [searchAlbumTrack]
  refine ⟨ha.1, ha.2.1, ?_, ?_, ?_⟩
  · rw [cntPass_cons, ha.2.2.1]
    simp [isPassFor]
  · rw [cntBk_cons, ha.2.2.2.1]
    simp [isBackoff]
  · exact List.mem_cons_of_mem _ ha.2.2.2.2

/-- C2 amended: with an always-failing collaborator and an uncached
track, a track whose `album` field is truthy gets exactly
`maxAttempts` album-context passes over the ranked peers — with a
1-second backoff sleep after every one of them, including the last —
followed by exactly one individual-search pass; a track without an
album gets exactly one individual-search pass and no backoff.  In both
cases the track is reported `Failed`. -/
theorem retryBound_amended (cfg : Config) (collab : Collab) (s : DLState)
    (track : Track) (hf : alwaysFails collab)
    (hnc : fileOk cfg s.fs (destOf cfg track) = false) :
    (albTruthy track.album = true →
      cntPass (destOf cfg track) (playlistTrackStep cfg collab s track).2 =
        cfg.maxAttempts + 1 ∧
      cntBk (playlistTrackStep cfg collab s track).2 = cfg.maxAttempts) ∧
    (albTruthy track.album = false →
      cntPass (destOf cfg track) (playlistTrackStep cfg collab s track).2 = 1 ∧
      cntBk (playlistTrackStep cfg collab s track).2 = 0) ∧
    Event.reportFailed track.sid ∈ (playlistTrackStep cfg collab s track).2 := by
  by_cases ha : albTruthy track.album = true
  · have hs := af_searchAlbumTrack cfg hf track s hnc
    have hd := af_downloadFile cfg hf
      (sanitize (track.name ++ ' ' :: track.artist)) (destOf cfg track)
      (searchAlbumTrack cfg collab track s).1
    rw [hs.1] at hd
    simp only [playlistTrackStep, hnc, Bool.false_eq_true, if_false, ha,
      if_true, hs.1, hs.2.1, hd.2.1]
    refine ⟨fun _ => ⟨?_, ?_⟩, fun hfalse => absurd hfalse (by decide), ?_⟩
    · rw [cntPass_append, cntPass_append, hs.2.2.1, hd.2.2.1]
      rw [cntPass_cons]
      simp [cntPass, isPassFor]
    · rw [cntBk_append, cntBk_append, hs.2.2.2.1, hd.2.2.2]
      rw [cntBk_cons]
      simp [cntBk, isBackoff]
    · simp only [List.mem_append]
      exact Or.inr (by simp)
  · rw [Bool.not_eq_true] at ha
    have hd := af_downloadFile cfg hf
      (sanitize (track.name ++ ' ' :: track.artist)) (destOf cfg track) s
    simp only [playlistTrackStep, hnc, Bool.false_eq_true, if_false, ha,
      hd.2.1]
    refine ⟨fun htrue => absurd htrue (by decide), fun _ => ⟨?_, ?_⟩, ?_⟩
    · rw [cntPass_append, cntPass_append, hd.2.2.1]
      rw [cntPass_cons]
      simp [cntPass, isPassFor]
    · rw [cntBk_append, cntBk_append, hd.2.2.2]
      rw [cntBk_cons]
      simp [cntBk, isBackoff]
    · simp only [List.mem_append]
      exact Or.inr (by simp)

/-- Witness for the amended C2 theorem: the concrete album track `tAlb`
under the always-failing collaborator gets `3 + 1` passes and `3`
backoffs. -/
theorem retryBound_amended_witness :
    alwaysFails collabFail ∧
    fileOk cfgC emptyS.fs (destOf cfgC tAlb) = false ∧
    (cntPass (destOf cfgC tAlb)
        (playlistTrackStep cfgC collabFail emptyS tAlb).2 =
      cfgC.maxAttempts + 1 ∧
     cntBk (playlistTrackStep cfgC collabFail emptyS tAlb).2 =
      cfgC.maxAttempts) :=
  ⟨fun _ _ _ => rfl, by decide,
    (retryBound_amended cfgC collabFail emptyS tAlb (fun _ _ _ => rfl)
      (by decide)).1 (by decide)⟩

/-- C2 counterexample: a track with no album, acquired through the
individual-search path with an always-failing collaborator, performs
exactly one pass over the ranked peers — not `maxAttempts = 3` — and
has no backoff sleeps before being reported `Failed`. -/
theorem retryBound_counterexample :
    Event.reportFailed tSolo.sid ∈
      (downloadPlaylist cfgC collabFail ['P'] [tSolo] emptyS).2 ∧
    cntPass (destOf cfgC tSolo)
      (downloadPlaylist cfgC collabFail ['P'] [tSolo] emptyS).2 = 1 ∧
    cntBk (downloadPlaylist cfgC collabFail ['P'] [tSolo] emptyS).2 = 0 ∧
    ¬ (cntPass (destOf cfgC tSolo)
        (downloadPlaylist cfgC collabFail ['P'] [tSolo] emptyS).2 = 3) := by
  decide

/-! ## Filesystem and GoodPair infrastructure -/

theorem fileOk_cons_self {cfg : Config} {n : Nat} (hn : cfg.minFilesize ≤ n)
    (d : List Char) (fs : List (List Char × Nat)) :
    fileOk cfg ((d, n) :: fs) d = true := by
  simp [fileOk, fsGet, hn]

theorem fileOk_cons_ne {d' d : List Char} (hne : d' ≠ d) (cfg : Config)
    (n : Nat) (fs : List (List Char × Nat)) :
    fileOk cfg ((d, n) :: fs) d' = fileOk cfg fs d' := by
  have hdd : ¬ d = d' := fun h => hne h.symm
  simp [fileOk, fsGet, hdd]

theorem cntT_zero_of_nonT {evs : List Event}
    (h : ∀ e ∈ evs, nonTransfer e = true) (d : List Char) :
    cntT d evs = 0 := by
  rw [cntT, List.countP_eq_zero]
  intro e he
  have := h e he
  cases e <;> simp_all [nonTransfer, isTransferTo]

theorem gp_nil (cfg : Config) (fs : List (List Char × Nat)) :
    GoodPair cfg fs fs [] := by
  intro d
  refine ⟨by simp [cntT], fun _ => by simp [cntT], fun h => h, ?_⟩
  intro h
  simp [cntT] at h

theorem gp_of_nonT {evs : List Event} (cfg : Config)
    (fs : List (List Char × Nat)) (h : ∀ e ∈ evs, nonTransfer e = true) :
    GoodPair cfg fs fs evs := by
  intro d
  rw [cntT_zero_of_nonT h d]
  exact ⟨Nat.zero_le _, fun _ => rfl, fun hx => hx, fun hx => by omega⟩

theorem gp_cons_nonT {cfg : Config} {fs fs' : List (List Char × Nat)}
    {evs : List Event} {e : Event} (he : nonTransfer e = true)
    (h : GoodPair cfg fs fs' evs) : GoodPair cfg fs fs' (e :: evs) := by
  intro d
  have hc : cntT d (e :: evs) = cntT d evs := by
    rw [cntT_cons]
    have : isTransferTo d e = false := by
      cases e <;> simp_all [nonTransfer, isTransferTo]
    simp [this]
  rw [hc]
  exact h d

theorem gp_trans {cfg : Config} {fs fs1 fs2 : List (List Char × Nat)}
    {e1 e2 : List Event} (h1 : GoodPair cfg fs fs1 e1)
    (h2 : GoodPair cfg fs1 fs2 e2) : GoodPair cfg fs fs2 (e1 ++ e2) := by
  intro d
  obtain ⟨b1, z1, p1, v1⟩ := h1 d
  obtain ⟨b2, z2, p2, v2⟩ := h2 d
  rw [cntT_append]
  refine ⟨?_, ?_, fun h => p2 (p1 h), ?_⟩
  · by_cases hc : 1 ≤ cntT d e1
    · have := z2 (v1 hc)
      omega
    · omega
  · intro h
    rw [z1 h, z2 (p1 h)]
  · intro h
    by_cases hc : 1 ≤ cntT d e2
    · exact v2 hc
    · have hc1 : 1 ≤ cntT d e1 := by omega
      exact p2 (v1 hc1)

theorem gp_transfer {cfg : Config} {n : Nat} {fs : List (List Char × Nat)}
    {dest : List Char} (hn : cfg.minFilesize ≤ n)
    (hguard : fileOk cfg fs dest = false) (u f : List Char) :
    GoodPair cfg fs ((dest, n) :: fs) [Event.transferEv u f dest] := by
  intro d
  by_cases hd : d = dest
  · subst hd
    refine ⟨?_, ?_, ?_, ?_⟩
    · simp [cntT, isTransferTo, List.countP_cons]
    · intro hok
      rw [hguard] at hok
      cases hok
    · intro hok
      rw [hguard] at hok
      cases hok
    · intro _
      exact fileOk_cons_self hn d fs
  · have hds : ¬ dest = d := fun h => hd h.symm
    have hc : cntT d [Event.transferEv u f dest] = 0 := by
      simp [cntT, isTransferTo, List.countP_cons, hds]
    rw [hc, fileOk_cons_ne hd cfg n fs]
    exact ⟨by omega, fun _ => rfl, fun hx => hx, fun hx => by omega⟩

/-! ## Behaviour under an always-succeeding collaborator -/

theorem as_doTransfer {cfg : Config} {collab : Collab}
    (hAS : alwaysSucceeds cfg collab) (u f d : List Char) (s : DLState) :
    ∃ n, cfg.minFilesize ≤ n ∧
      doTransfer cfg collab u f d s =
        ({ s with fs := (d, n) :: s.fs }, [Event.transferEv u f d], true) := by
  obtain ⟨hc, n, hw, hn⟩ := hAS u f d
  exact ⟨n, hn, by simp [doTransfer, hw, hc, hn]⟩

theorem as_fileItems {cfg : Config} {collab : Collab}
    (hAS : alwaysSucceeds cfg collab) (user dest : List Char) :
    ∀ (items : List (List Char)) (s : DLState),
      fileOk cfg s.fs dest = false →
      GoodPair cfg s.fs (fileItems cfg collab user dest items s).1.fs
          (fileItems cfg collab user dest items s).2.1 ∧
      ((fileItems cfg collab user dest items s).2.2 = true →
        fileOk cfg (fileItems cfg collab user dest items s).1.fs dest = true) ∧
      ((fileItems cfg collab user dest items s).2.2 = false →
        (fileItems cfg collab user dest items s).1 = s ∧
        ∀ e ∈ (fileItems cfg collab user dest items s).2.1,
          nonTransfer e = true) := by
  intro items
  induction items with
  | nil =>
    intro s hpre
    simp only [fileItems]
    refine ⟨gp_nil cfg s.fs, ?_, ?_⟩
    · intro h
      exact absurd h (by decide)
    · intro _
      exact ⟨by trivial, by simp⟩
  | cons f rest ih =>
    intro s hpre
    obtain ⟨n, hn, heq⟩ := as_doTransfer hAS user f dest s
    simp only [fileItems, heq, if_true]
    split
    · exact ⟨gp_transfer hn hpre user f,
        fun _ => fileOk_cons_self hn dest s.fs,
        fun h => by cases h⟩
    · exact ih s hpre

theorem as_filePeers {cfg : Config} {collab : Collab}
    (hAS : alwaysSucceeds cfg collab) (dest : List Char) :
    ∀ (ps : List PeerResult) (s : DLState),
      fileOk cfg s.fs dest = false →
      GoodPair cfg s.fs (filePeers cfg collab dest ps s).1.fs
          (filePeers cfg collab dest ps s).2.1 ∧
      ((filePeers cfg collab dest ps s).2.2 = true →
        fileOk cfg (filePeers cfg collab dest ps s).1.fs dest = true) ∧
      ((filePeers cfg collab dest ps s).2.2 = false →
        (filePeers cfg collab dest ps s).1 = s ∧
        ∀ e ∈ (filePeers cfg collab dest ps s).2.1, nonTransfer e = true) := by
  intro ps
  induction ps with
  | nil =>
    intro s hpre
    simp only [filePeers]
    refine ⟨gp_nil cfg s.fs, ?_, ?_⟩
    · intro h
      exact absurd h (by decide)
    · intro _
      exact ⟨by trivial, by simp⟩
  | cons p ps ih =>
    intro s hpre
    have hi := as_fileItems hAS p.username dest p.sharedItems s hpre
    simp only [filePeers]
    by_cases hok : (fileItems cfg collab p.username dest p.sharedItems s).2.2 = true
    · simp only [hok, if_true]
      exact ⟨hi.1, fun _ => hi.2.1 hok, fun h => by cases h⟩
    · rw [Bool.not_eq_true] at hok
      simp only [hok, Bool.false_eq_true, if_false]
      obtain ⟨hst, hnt⟩ := hi.2.2 hok
      rw [hst]
      have hr := ih s hpre
      refine ⟨gp_trans (gp_of_nonT cfg s.fs hnt) hr.1, fun h => hr.2.1 h,
        fun h => ?_⟩
      obtain ⟨hs2, hn2⟩ := hr.2.2 h
      refine ⟨hs2, fun e he => ?_⟩
      rw [List.mem_append] at he
      rcases he with he | he
      · exact hnt e he
      · exact hn2 e he

theorem as_downloadFile {cfg : Config} {collab : Collab}
    (hAS : alwaysSucceeds cfg collab) (query dest : List Char) (s : DLState)
    (hpre : fileOk cfg s.fs dest = false) :
    GoodPair cfg s.fs (downloadFile cfg collab query dest s).1.fs
        (downloadFile cfg collab query dest s).2.1 ∧
    ((downloadFile cfg collab query dest s).2.2 = true →
      fileOk cfg (downloadFile cfg collab query dest s).1.fs dest = true) ∧
    ((downloadFile cfg collab query dest s).2.2 = false →
      (downloadFile cfg collab query dest s).1 = s) := by
  have hp := as_filePeers hAS dest (rankPeers (collab.searchFn query)) s hpre
  simp only [downloadFile]
  exact ⟨gp_cons_nonT rfl (gp_cons_nonT rfl hp.1), fun h => hp.2.1 h,
    fun h => (hp.2.2 h).1⟩

theorem as_albumTrackItems {cfg : Config} {collab : Collab}
    (hAS : alwaysSucceeds cfg collab) (track : Track) (user : List Char) :
    ∀ (items : List (List Char)) (s : DLState),
      GoodPair cfg s.fs (albumTrackItems cfg collab track user items s).1.fs
          (albumTrackItems cfg collab track user items s).2.1 ∧
      ((albumTrackItems cfg collab track user items s).2.2 = true →
        fileOk cfg (albumTrackItems cfg collab track user items s).1.fs
          (destOf cfg track) = true) ∧
      ((albumTrackItems cfg collab track user items s).2.2 = false →
        (albumTrackItems cfg collab track user items s).1 = s ∧
        ∀ e ∈ (albumTrackItems cfg collab track user items s).2.1,
          nonTransfer e = true) := by
  intro items
  induction items with
  | nil =>
    intro s
    simp only [albumTrackItems]
    refine ⟨gp_nil cfg s.fs, ?_, ?_⟩
    · intro h
      exact absurd h (by decide)
    · intro _
      exact ⟨by trivial, by simp⟩
  | cons f rest ih =>
    intro s
    simp only [albumTrackItems]
    split
    · by_cases hc : fileOk cfg s.fs (destOf cfg track) = true
      · simp only [hc, if_true]
        refine ⟨gp_of_nonT cfg s.fs (by simp [nonTransfer]), fun _ => by trivial, ?_⟩
        intro h
        exact absurd h (by decide)
      · rw [Bool.not_eq_true] at hc
        simp only [hc, Bool.false_eq_true, if_false]
        obtain ⟨n, hn, heq⟩ := as_doTransfer hAS user f (destOf cfg track) s
        simp only [heq, if_true]
        refine ⟨?_, fun _ => fileOk_cons_self hn _ s.fs, ?_⟩
        · exact gp_trans (gp_transfer hn hc user f)
            (gp_of_nonT cfg _ (by simp [nonTransfer]))
        · intro h
          exact absurd h (by decide)
    · exact ih s

theorem as_albumTrackPeers {cfg : Config} {collab : Collab}
    (hAS : alwaysSucceeds cfg collab) (track : Track) :
    ∀ (ps : List PeerResult) (s : DLState),
      GoodPair cfg s.fs (albumTrackPeers cfg collab track ps s).1.fs
          (albumTrackPeers cfg collab track ps s).2.1 ∧
      ((albumTrackPeers cfg collab track ps s).2.2 = true →
        fileOk cfg (albumTrackPeers cfg collab track ps s).1.fs
          (destOf cfg track) = true) ∧
      ((albumTrackPeers cfg collab track ps s).2.2 = false →
        (albumTrackPeers cfg collab track ps s).1 = s ∧
        ∀ e ∈ (albumTrackPeers cfg collab track ps s).2.1,
          nonTransfer e = true) := by
  intro ps
  induction ps with
  | nil =>
    intro s
    simp only [albumTrackPeers]
    refine ⟨gp_nil cfg s.fs, ?_, ?_⟩
    · intro h
      exact absurd h (by decide)
    · intro _
      exact ⟨by trivial, by simp⟩
  | cons p ps ih =>
    intro s
    have hi := as_albumTrackItems hAS track p.username p.sharedItems s
    simp only [albumTrackPeers]
    by_cases hok : (albumTrackItems cfg collab track p.username p.sharedItems s).2.2 = true
    · simp only [hok, if_true]
      refine ⟨hi.1, fun _ => hi.2.1 hok, ?_⟩
      intro h
      exact absurd h (by decide)
    · rw [Bool.not_eq_true] at hok
      simp only [hok, Bool.false_eq_true, if_false]
      obtain ⟨hst, hnt⟩ := hi.2.2 hok
      rw [hst]
      have hr := ih s
      refine ⟨gp_trans (gp_of_nonT cfg s.fs hnt) hr.1, fun h => hr.2.1 h,
        fun h => ?_⟩
      obtain ⟨hs2, hn2⟩ := hr.2.2 h
      refine ⟨hs2, fun e he => ?_⟩
      rw [List.mem_append] at he
      rcases he with he | he
      · exact hnt e he
      · exact hn2 e he

theorem as_albumAttempts {cfg : Config} {collab : Collab}
    (hAS : alwaysSucceeds cfg collab) (track : Track)
    (peers : List PeerResult) :
    ∀ (n : Nat) (s : DLState),
      GoodPair cfg s.fs (albumAttempts cfg collab track peers n s).1.fs
          (albumAttempts cfg collab track peers n s).2.1 ∧
      ((albumAttempts cfg collab track peers n s).2.2 = true →
        fileOk cfg (albumAttempts cfg collab track peers n s).1.fs
          (destOf cfg track) = true) ∧
      ((albumAttempts cfg collab track peers n s).2.2 = false →
        (albumAttempts cfg collab track peers n s).1 = s ∧
        ∀ e ∈ (albumAttempts cfg collab track peers n s).2.1,
          nonTransfer e = true) := by
  intro n
  induction n with
  | zero =>
    intro s
    simp only [albumAttempts]
    refine ⟨gp_of_nonT cfg s.fs (by simp [nonTransfer]), ?_, ?_⟩
    · intro h
      exact absurd h (by decide)
    · intro _
      exact ⟨by trivial, by simp [nonTransfer]⟩
  | succ n ih =>
    intro s
    have hp := as_albumTrackPeers hAS track peers s
    simp only [albumAttempts]
    by_cases hok : (albumTrackPeers cfg collab track peers s).2.2 = true
    · simp only [hok, if_true]
      refine ⟨gp_cons_nonT rfl hp.1, fun _ => hp.2.1 hok, ?_⟩
      intro h
      exact absurd h (by decide)
    · rw [Bool.not_eq_true] at hok
      simp only [hok, Bool.false_eq_true, if_false]
      obtain ⟨hst, hnt⟩ := hp.2.2 hok
      rw [hst]
      have hr := ih s
      refine ⟨?_, fun h => hr.2.1 h, fun h => ?_⟩
      · refine @gp_trans cfg s.fs s.fs _ _ _ ?_ ?_
        · exact gp_cons_nonT rfl (gp_of_nonT cfg s.fs hnt)
        · exact gp_cons_nonT rfl hr.1
      · obtain ⟨hs2, hn2⟩ := hr.2.2 h
        refine ⟨hs2, fun e he => ?_⟩
        rcases List.mem_append.mp he with he | he
        · rcases List.mem_cons.mp he with rfl | he
          · rfl
          · exact hnt e he
        · rcases List.mem_cons.mp he with rfl | he
          · rfl
          · exact hn2 e he

theorem as_searchAlbumTrack {cfg : Config} {collab : Collab}
    (hAS : alwaysSucceeds cfg collab) (track : Track) (s : DLState) :
    GoodPair cfg s.fs (searchAlbumTrack cfg collab track s).1.fs
        (searchAlbumTrack cfg collab track s).2.1 ∧
    ((searchAlbumTrack cfg collab track s).2.2 = true →
      fileOk cfg (searchAlbumTrack cfg collab track s).1.fs
        (destOf cfg track) = true) ∧
    ((searchAlbumTrack cfg collab track s).2.2 = false →
      (searchAlbumTrack cfg collab track s).1 = s) := by
  have ha := as_albumAttempts hAS track
    (rankPeers (collab.searchFn (sanitize (pyStr track.album ++ ' ' :: track.artist))))
    cfg.maxAttempts s
  simp only [searchAlbumTrack]
  exact ⟨gp_cons_nonT rfl ha.1, fun h => ha.2.1 h, fun h => (ha.2.2 h).1⟩

theorem as_playlistTrackStep {cfg : Config} {collab : Collab}
    (hAS : alwaysSucceeds cfg collab) (s : DLState) (track : Track) :
    GoodPair cfg s.fs (playlistTrackStep cfg collab s track).1.fs
      (playlistTrackStep cfg collab s track).2 := by
  by_cases h0 : fileOk cfg s.fs (destOf cfg track) = true
  · simp only [playlistTrackStep, h0, if_true]
    exact gp_nil cfg s.fs
  · rw [Bool.not_eq_true] at h0
    by_cases ha : albTruthy track.album = true
    · have hsa := as_searchAlbumTrack hAS track s
      by_cases hok : (searchAlbumTrack cfg collab track s).2.2 = true
      · simp only [playlistTrackStep, h0, ha, hok, Bool.false_eq_true,
          if_false, if_true]
        exact hsa.1
      · rw [Bool.not_eq_true] at hok
        have hst := hsa.2.2 hok
        have hdf := as_downloadFile hAS
          (sanitize (track.name ++ ' ' :: track.artist)) (destOf cfg track) s h0
        simp only [playlistTrackStep, h0, ha, hok, hst, Bool.false_eq_true,
          if_false, if_true]
        refine @gp_trans cfg s.fs
          (downloadFile cfg collab (sanitize (track.name ++ ' ' :: track.artist))
            (destOf cfg track) s).1.fs _ _ _ ?_ ?_
        · refine gp_trans ?_ hdf.1
          have hgp := hsa.1
          rw [show (searchAlbumTrack cfg collab track s).1.fs = s.fs from
            congrArg DLState.fs hst] at hgp
          exact hgp
        · exact gp_of_nonT cfg _ (by split <;> simp [nonTransfer])
    · rw [Bool.not_eq_true] at ha
      have hdf := as_downloadFile hAS
        (sanitize (track.name ++ ' ' :: track.artist)) (destOf cfg track) s h0
      simp only [playlistTrackStep, h0, ha, Bool.false_eq_true, if_false]
      refine @gp_trans cfg s.fs
        (downloadFile cfg collab (sanitize (track.name ++ ' ' :: track.artist))
          (destOf cfg track) s).1.fs _ _ _ ?_ ?_
      · exact gp_trans (gp_nil cfg s.fs) hdf.1
      · exact gp_of_nonT cfg _ (by split <;> simp [nonTransfer])

theorem as_playlistLoop {cfg : Config} {collab : Collab}
    (hAS : alwaysSucceeds cfg collab) :
    ∀ (ts : List Track) (s : DLState),
      GoodPair cfg s.fs (playlistLoop cfg collab ts s).1.fs
        (playlistLoop cfg collab ts s).2 := by
  intro ts
  induction ts with
  | nil =>
    intro s
    exact gp_nil cfg s.fs
  | cons t ts ih =>
    intro s
    simp only [playlistLoop]
    exact gp_trans (as_playlistTrackStep hAS s t) (ih _)

theorem as_downloadPlaylist {cfg : Config} {collab : Collab}
    (hAS : alwaysSucceeds cfg collab) (name : List Char) (ts : List Track)
    (s : DLState) :
    GoodPair cfg s.fs (downloadPlaylist cfg collab name ts s).1.fs
      (downloadPlaylist cfg collab name ts s).2 := by
  by_cases hg : name ∈ s.handledPlaylists
  · simp only [downloadPlaylist, if_pos hg]
    exact gp_nil cfg s.fs
  · simp only [downloadPlaylist, if_neg hg]
    exact as_playlistLoop hAS ts _

theorem as_albumVisit {cfg : Config} {collab : Collab}
    (hAS : alwaysSucceeds cfg collab) (user file : List Char) (t : Track)
    (s : DLState) :
    GoodPair cfg s.fs (albumVisit cfg collab user file t s).1.fs
      (albumVisit cfg collab user file t s).2.1 := by
  by_cases hc : fileOk cfg s.fs (destOf cfg t) = true
  · simp only [albumVisit, hc, if_true]
    exact gp_of_nonT cfg s.fs (by simp [nonTransfer])
  · rw [Bool.not_eq_true] at hc
    obtain ⟨n, hn, heq⟩ := as_doTransfer hAS user file (destOf cfg t) s
    simp only [albumVisit, hc, Bool.false_eq_true, if_false, heq, if_true]
    exact gp_trans (gp_transfer hn hc user file)
      (gp_of_nonT cfg _ (by simp [nonTransfer]))

theorem as_visitTracks {cfg : Config} {collab : Collab}
    (hAS : alwaysSucceeds cfg collab) (user file : List Char) :
    ∀ (n : Nat) (suffix acc : List Track) (s : DLState), suffix.length ≤ n →
      GoodPair cfg s.fs (visitTracks cfg collab user file acc suffix s).1.fs
        (visitTracks cfg collab user file acc suffix s).2.1 := by
  intro n
  induction n with
  | zero =>
    intro suffix acc s hlen
    cases suffix with
    | nil => exact gp_nil cfg s.fs
    | cons t rest => simp at hlen
  | succ n ih =>
    intro suffix acc s hlen
    cases suffix with
    | nil => exact gp_nil cfg s.fs
    | cons t rest =>
      simp only [visitTracks]
      by_cases hm : matchesName t.name file = true
      · simp only [hm, if_true]
        by_cases hr : (albumVisit cfg collab user file t s).2.2 = true
        · simp only [hr, if_true]
          cases rest with
          | nil => exact as_albumVisit hAS user file t s
          | cons u rest' =>
            exact gp_trans (as_albumVisit hAS user file t s)
              (ih rest' (acc ++ [u]) _ (by simp at hlen ⊢; omega))
        · rw [Bool.not_eq_true] at hr
          simp only [hr, Bool.false_eq_true, if_false]
          exact gp_trans (as_albumVisit hAS user file t s)
            (ih rest (acc ++ [t]) _ (by simp at hlen ⊢; omega))
      · rw [Bool.not_eq_true] at hm
        simp only [hm, Bool.false_eq_true, if_false]
        exact ih rest (acc ++ [t]) s (by simp at hlen ⊢; omega)

theorem as_visitItems {cfg : Config} {collab : Collab}
    (hAS : alwaysSucceeds cfg collab) (user : List Char) :
    ∀ (items : List (List Char)) (remaining : List Track) (s : DLState),
      GoodPair cfg s.fs (visitItems cfg collab user items remaining s).1.fs
        (visitItems cfg collab user items remaining s).2.1 := by
  intro items
  induction items with
  | nil => intro remaining s; exact gp_nil cfg s.fs
  | cons f rest ih =>
    intro remaining s
    simp only [visitItems]
    split
    · exact gp_trans
        (as_visitTracks hAS user f remaining.length remaining [] s (Nat.le_refl _))
        (ih _ _)
    · exact ih remaining s

theorem as_peerLoop {cfg : Config} {collab : Collab}
    (hAS : alwaysSucceeds cfg collab) (missing : List Track) :
    ∀ (ps : List PeerResult) (s : DLState),
      GoodPair cfg s.fs (peerLoop cfg collab missing ps s).1.fs
        (peerLoop cfg collab missing ps s).2.1 := by
  intro ps
  induction ps with
  | nil => intro s; exact gp_nil cfg s.fs
  | cons p ps ih =>
    intro s
    simp only [peerLoop]
    split
    · exact as_visitItems hAS p.username p.sharedItems missing s
    · exact gp_trans (as_visitItems hAS p.username p.sharedItems missing s) (ih _)

theorem as_fallbackLoop {cfg : Config} {collab : Collab}
    (hAS : alwaysSucceeds cfg collab) :
    ∀ (ts : List Track) (s : DLState),
      GoodPair cfg s.fs (fallbackLoop cfg collab ts s).1.fs
        (fallbackLoop cfg collab ts s).2 := by
  intro ts
  induction ts with
  | nil => intro s; exact gp_nil cfg s.fs
  | cons t ts ih =>
    intro s
    simp only [fallbackLoop]
    exact gp_trans (as_downloadPlaylist hAS iafName [t] s) (ih _)

theorem as_downloadAlbum {cfg : Config} {collab : Collab}
    (hAS : alwaysSucceeds cfg collab) (album : Option (List Char))
    (artist : List Char) (tracks : List Track) (s : DLState) :
    GoodPair cfg s.fs (downloadAlbum cfg collab album artist tracks s).1.fs
      (downloadAlbum cfg collab album artist tracks s).2 := by
  by_cases hg : album ∈ s.handledAlbums
  · simp only [downloadAlbum, if_pos hg]
    exact gp_nil cfg s.fs
  · simp only [downloadAlbum, if_neg hg]
    split
    · exact gp_nil cfg s.fs
    · split
      · exact gp_cons_nonT rfl (as_peerLoop hAS _ _ _)
      · refine @gp_trans cfg s.fs
          (peerLoop cfg collab _ _ _).1.fs _ _ _
          (gp_cons_nonT rfl (as_peerLoop hAS _ _ _))
          (gp_cons_nonT rfl (as_fallbackLoop hAS _ _))

theorem as_albumPhase {cfg : Config} {collab : Collab}
    (hAS : alwaysSucceeds cfg collab) (tracks : List Track) :
    ∀ (ks : List (Option (List Char))) (s : DLState),
      GoodPair cfg s.fs (albumPhase cfg collab tracks ks s).1.fs
        (albumPhase cfg collab tracks ks s).2 := by
  intro ks
  induction ks with
  | nil => intro s; exact gp_nil cfg s.fs
  | cons k ks ih =>
    intro s
    simp only [albumPhase]
    split
    · exact gp_trans (gp_nil cfg s.fs) (ih _)
    · exact gp_trans (as_downloadAlbum hAS k _ _ s) (ih _)

theorem as_playlistPhase {cfg : Config} {collab : Collab}
    (hAS : alwaysSucceeds cfg collab) (tracks : List Track) :
    ∀ (ks : List (List Char)) (s : DLState),
      GoodPair cfg s.fs (playlistPhase cfg collab tracks ks s).1.fs
        (playlistPhase cfg collab tracks ks s).2 := by
  intro ks
  induction ks with
  | nil => intro s; exact gp_nil cfg s.fs
  | cons k ks ih =>
    intro s
    simp only [playlistPhase]
    exact gp_trans (as_downloadPlaylist hAS k _ s) (ih _)

/-- C3: with a collaborator that makes transfers succeed, a full run
initiates at most one transfer per track id (per destination path), even
when a track is referenced by both an album and playlists; and the run
is, definitionally, the album phase followed by the playlist phase
(the playlist pass skips album-resolved tracks via the cache check). -/
theorem run_atMostOneTransferPerTrack (outdir ext : List Char)
    (collab : Collab) (tracks : List Track) (fs0 : List (List Char × Nat))
    (hAS : alwaysSucceeds (mainConfig outdir ext) collab) :
    (∀ sid, cntT (destOfSid (mainConfig outdir ext) sid)
      (mainRun outdir ext collab tracks fs0).2 ≤ 1) ∧
    mainRun outdir ext collab tracks fs0 =
      (let cfg := mainConfig outdir ext
       let r1 := albumPhase cfg collab tracks (albumKeys tracks) ⟨fs0, [], []⟩
       let r2 := playlistPhase cfg collab tracks (playlistKeys tracks) r1.1
       (r2.1, r1.2 ++ r2.2)) := by
  refine ⟨?_, rfl⟩
  intro sid
  have h1 := as_albumPhase hAS tracks (albumKeys tracks) ⟨fs0, [], []⟩
  have h2 := as_playlistPhase hAS tracks (playlistKeys tracks)
    (albumPhase (mainConfig outdir ext) collab tracks (albumKeys tracks)
      ⟨fs0, [], []⟩).1
  have := gp_trans h1 h2 (destOfSid (mainConfig outdir ext) sid)
  exact this.1

/-- Witness for C3: a track in both an album and a playlist, with an
always-succeeding collaborator, is transferred exactly once. -/
theorem run_atMostOneTransferPerTrack_witness :
    cntT (destOfSid (mainConfig ['o', 'u', 't'] ['m', 'p', '3']) tDual.sid)
      (mainRun ['o', 'u', 't'] ['m', 'p', '3'] collabOK [tDual] []).2 ≤ 1 :=
  (run_atMostOneTransferPerTrack ['o', 'u', 't'] ['m', 'p', '3'] collabOK
    [tDual] [] (fun _ _ _ => ⟨rfl, 5000, rfl, by decide⟩)).1 tDual.sid

/-! ## Report soundness under an arbitrary collaborator -/

theorem fileOk_congr {fs1 fs2 : List (List Char × Nat)} {d : List Char}
    (cfg : Config) (h : fsGet fs1 d = fsGet fs2 d) :
    fileOk cfg fs1 d = fileOk cfg fs2 d := by
  unfold fileOk
  rw [h]

theorem fsGet_cons_ne {d' d : List Char} (hne : d' ≠ d) (n : Nat)
    (fs : List (List Char × Nat)) :
    fsGet ((d, n) :: fs) d' = fsGet fs d' := by
  have hdd : ¬ d = d' := fun h => hne h.symm
  simp [fsGet, hdd]

theorem doneOrCached_append {sid : List Char} {E1 E2 : List Event} :
    doneOrCached sid (E1 ++ E2) ↔ doneOrCached sid E1 ∨ doneOrCached sid E2 := by
  simp only [doneOrCached, List.mem_append]
  tauto

theorem not_doneOrCached_of_noDC {evs : List Event} {sid : List Char}
    (h : ∀ e ∈ evs, isDC e = false) : ¬ doneOrCached sid evs := by
  intro hdc
  rcases hdc with hm | hm
  · have := h _ hm
    simp [isDC] at this
  · have := h _ hm
    simp [isDC] at this

theorem frame_doTransfer (cfg : Config) (collab : Collab)
    (u f d : List Char) (s : DLState) :
    (∀ d', d' ≠ d →
      fsGet (doTransfer cfg collab u f d s).1.fs d' = fsGet s.fs d') ∧
    ((doTransfer cfg collab u f d s).2.2 = true →
      fileOk cfg (doTransfer cfg collab u f d s).1.fs d = true) := by
  simp only [doTransfer]
  rcases hw : (collab.transferFn u f d).written with _ | n
  · refine ⟨fun d' _ => rfl, ?_⟩
    intro hok
    simp at hok
  · refine ⟨fun d' hne => fsGet_cons_ne hne n s.fs, ?_⟩
    intro hok
    simp only [Bool.and_eq_true, decide_eq_true_eq] at hok
    exact fileOk_cons_self hok.2 d s.fs

theorem rep_fileItems (cfg : Config) (collab : Collab) (user dest : List Char) :
    ∀ (items : List (List Char)) (s : DLState),
      (∀ d', d' ≠ dest →
        fsGet (fileItems cfg collab user dest items s).1.fs d' = fsGet s.fs d') ∧
      (∀ e ∈ (fileItems cfg collab user dest items s).2.1, isDC e = false) ∧
      ((fileItems cfg collab user dest items s).2.2 = true →
        fileOk cfg (fileItems cfg collab user dest items s).1.fs dest = true) := by
  intro items
  induction items with
  | nil =>
    intro s
    simp only [fileItems]
    exact ⟨fun d' _ => by trivial, by simp, fun h => absurd h (by decide)⟩
  | cons f rest ih =>
    intro s
    simp only [fileItems]
    split
    · have hd := frame_doTransfer cfg collab user f dest s
      by_cases hok : (doTransfer cfg collab user f dest s).2.2 = true
      · simp only [hok, if_true]
        refine ⟨hd.1, ?_, fun _ => hd.2 hok⟩
        intro e he
        simp only [doTransfer, List.mem_singleton] at he
        subst he
        rfl
      · rw [Bool.not_eq_true] at hok
        simp only [hok, Bool.false_eq_true, if_false]
        have hr := ih (doTransfer cfg collab user f dest s).1
        refine ⟨fun d' hne => (hr.1 d' hne).trans (hd.1 d' hne), ?_,
          fun h => hr.2.2 h⟩
        intro e he
        rcases List.mem_append.mp he with he | he
        · simp only [doTransfer, List.mem_singleton] at he
          subst he
          rfl
        · exact hr.2.1 e he
    · exact ih s

theorem rep_filePeers (cfg : Config) (collab : Collab) (dest : List Char) :
    ∀ (ps : List PeerResult) (s : DLState),
      (∀ d', d' ≠ dest →
        fsGet (filePeers cfg collab dest ps s).1.fs d' = fsGet s.fs d') ∧
      (∀ e ∈ (filePeers cfg collab dest ps s).2.1, isDC e = false) ∧
      ((filePeers cfg collab dest ps s).2.2 = true →
        fileOk cfg (filePeers cfg collab dest ps s).1.fs dest = true) := by
  intro ps
  induction ps with
  | nil =>
    intro s
    simp only [filePeers]
    exact ⟨fun d' _ => by trivial, by simp, fun h => absurd h (by decide)⟩
  | cons p ps ih =>
    intro s
    have hi := rep_fileItems cfg collab p.username dest p.sharedItems s
    simp only [filePeers]
    by_cases hok : (fileItems cfg collab p.username dest p.sharedItems s).2.2 = true
    · simp only [hok, if_true]
      exact ⟨hi.1, hi.2.1, fun _ => hi.2.2 hok⟩
    · rw [Bool.not_eq_true] at hok
      simp only [hok, Bool.false_eq_true, if_false]
      have hr := ih (fileItems cfg collab p.username dest p.sharedItems s).1
      refine ⟨fun d' hne => (hr.1 d' hne).trans (hi.1 d' hne), ?_,
        fun h => hr.2.2 h⟩
      intro e he
      rcases List.mem_append.mp he with he | he
      · exact hi.2.1 e he
      · exact hr.2.1 e he

theorem rep_downloadFile (cfg : Config) (collab : Collab)
    (query dest : List Char) (s : DLState) :
    (∀ d', d' ≠ dest →
      fsGet (downloadFile cfg collab query dest s).1.fs d' = fsGet s.fs d') ∧
    (∀ e ∈ (downloadFile cfg collab query dest s).2.1, isDC e = false) ∧
    ((downloadFile cfg collab query dest s).2.2 = true →
      fileOk cfg (downloadFile cfg collab query dest s).1.fs dest = true) := by
  have hp := rep_filePeers cfg collab dest (rankPeers (collab.searchFn query)) s
  simp only [downloadFile]
  refine ⟨hp.1, ?_, fun h => hp.2.2 h⟩
  intro e he
  rcases List.mem_cons.mp he with rfl | he
  · rfl
  · rcases List.mem_cons.mp he with rfl | he
    · rfl
    · exact hp.2.1 e he

theorem doc_cons_nonDC {sid : List Char} {e : Event} {evs : List Event}
    (h : doneOrCached sid (e :: evs)) (he : isDC e = false) :
    doneOrCached sid evs := by
  rcases h with hm | hm
  · rcases List.mem_cons.mp hm with rfl | hm
    · simp [isDC] at he
    · exact Or.inl hm
  · rcases List.mem_cons.mp hm with rfl | hm
    · simp [isDC] at he
    · exact Or.inr hm

theorem noDC_cons {e : Event} {evs : List Event} (he : isDC e = false)
    (h : ∀ x ∈ evs, isDC x = false) : ∀ x ∈ e :: evs, isDC x = false := by
  intro x hx
  rcases List.mem_cons.mp hx with rfl | hx
  · exact he
  · exact h x hx

theorem noDC_append {e1 e2 : List Event} (h1 : ∀ e ∈ e1, isDC e = false)
    (h2 : ∀ e ∈ e2, isDC e = false) : ∀ e ∈ e1 ++ e2, isDC e = false := by
  intro e he
  rcases List.mem_append.mp he with he | he
  · exact h1 e he
  · exact h2 e he

theorem doc_singleton_done {sid x : List Char}
    (h : doneOrCached sid [Event.reportDone x]) : sid = x := by
  rcases h with hm | hm
  · rw [List.mem_singleton] at hm
    injection hm
  · rw [List.mem_singleton] at hm
    cases hm

theorem doc_singleton_cached {sid x : List Char}
    (h : doneOrCached sid [Event.reportCached x]) : sid = x := by
  rcases h with hm | hm
  · rw [List.mem_singleton] at hm
    cases hm
  · rw [List.mem_singleton] at hm
    injection hm

theorem noDC_doTransfer (cfg : Config) (collab : Collab)
    (u f d : List Char) (s : DLState) :
    ∀ e ∈ (doTransfer cfg collab u f d s).2.1, isDC e = false := by
  intro e he
  simp only [doTransfer, List.mem_singleton] at he
  subst he
  rfl

theorem rep_albumTrackItems (cfg : Config) (collab : Collab) (track : Track)
    (user : List Char) :
    ∀ (items : List (List Char)) (s : DLState),
      (∀ d', d' ≠ destOf cfg track →
        fsGet (albumTrackItems cfg collab track user items s).1.fs d' =
          fsGet s.fs d') ∧
      ((albumTrackItems cfg collab track user items s).2.2 = false →
        ∀ e ∈ (albumTrackItems cfg collab track user items s).2.1,
          isDC e = false) ∧
      ((albumTrackItems cfg collab track user items s).2.2 = true →
        fileOk cfg (albumTrackItems cfg collab track user items s).1.fs
          (destOf cfg track) = true ∧
        ∀ sid', doneOrCached sid'
          (albumTrackItems cfg collab track user items s).2.1 →
          sid' = track.sid) := by
  intro items
  induction items with
  | nil =>
    intro s
    simp only [albumTrackItems]
    exact ⟨fun d' _ => by trivial, fun _ => by simp, fun h => absurd h (by decide)⟩
  | cons f rest ih =>
    intro s
    simp only [albumTrackItems]
    split
    · by_cases hc : fileOk cfg s.fs (destOf cfg track) = true
      · simp only [hc, if_true]
        exact ⟨fun d' _ => by trivial, fun h => absurd h (by decide),
          fun _ => ⟨by trivial, fun sid' hdc => doc_singleton_cached hdc⟩⟩
      · rw [Bool.not_eq_true] at hc
        simp only [hc, Bool.false_eq_true, if_false]
        have hd := frame_doTransfer cfg collab user f (destOf cfg track) s
        by_cases hok : (doTransfer cfg collab user f (destOf cfg track) s).2.2 = true
        · simp only [hok, if_true]
          refine ⟨hd.1, fun h => absurd h (by decide), fun _ => ⟨hd.2 hok, ?_⟩⟩
          intro sid' hdc
          rcases doneOrCached_append.mp hdc with hdc | hdc
          · exact absurd hdc
              (not_doneOrCached_of_noDC (noDC_doTransfer cfg collab user f _ s))
          · exact doc_singleton_done hdc
        · rw [Bool.not_eq_true] at hok
          simp only [hok, Bool.false_eq_true, if_false]
          have hr := ih (doTransfer cfg collab user f (destOf cfg track) s).1
          refine ⟨fun d' hne => (hr.1 d' hne).trans (hd.1 d' hne), ?_, ?_⟩
          · intro h
            exact noDC_append (noDC_doTransfer cfg collab user f _ s) (hr.2.1 h)
          · intro h
            refine ⟨(hr.2.2 h).1, ?_⟩
            intro sid' hdc
            rcases doneOrCached_append.mp hdc with hdc | hdc
            · exact absurd hdc
                (not_doneOrCached_of_noDC (noDC_doTransfer cfg collab user f _ s))
            · exact (hr.2.2 h).2 sid' hdc
    · exact ih s

theorem rep_albumTrackPeers (cfg : Config) (collab : Collab) (track : Track) :
    ∀ (ps : List PeerResult) (s : DLState),
      (∀ d', d' ≠ destOf cfg track →
        fsGet (albumTrackPeers cfg collab track ps s).1.fs d' = fsGet s.fs d') ∧
      ((albumTrackPeers cfg collab track ps s).2.2 = false →
        ∀ e ∈ (albumTrackPeers cfg collab track ps s).2.1, isDC e = false) ∧
      ((albumTrackPeers cfg collab track ps s).2.2 = true →
        fileOk cfg (albumTrackPeers cfg collab track ps s).1.fs
          (destOf cfg track) = true ∧
        ∀ sid', doneOrCached sid' (albumTrackPeers cfg collab track ps s).2.1 →
          sid' = track.sid) := by
  intro ps
  induction ps with
  | nil =>
    intro s
    simp only [albumTrackPeers]
    exact ⟨fun d' _ => by trivial, fun _ => by simp, fun h => absurd h (by decide)⟩
  | cons p ps ih =>
    intro s
    have hi := rep_albumTrackItems cfg collab track p.username p.sharedItems s
    simp only [albumTrackPeers]
    by_cases hok : (albumTrackItems cfg collab track p.username p.sharedItems s).2.2 = true
    · simp only [hok, if_true]
      exact ⟨hi.1, fun h => absurd h (by decide), fun _ => hi.2.2 hok⟩
    · rw [Bool.not_eq_true] at hok
      simp only [hok, Bool.false_eq_true, if_false]
      have hr := ih (albumTrackItems cfg collab track p.username p.sharedItems s).1
      refine ⟨fun d' hne => (hr.1 d' hne).trans (hi.1 d' hne), ?_, ?_⟩
      · intro h
        exact noDC_append (hi.2.1 hok) (hr.2.1 h)
      · intro h
        refine ⟨(hr.2.2 h).1, ?_⟩
        intro sid' hdc
        rcases doneOrCached_append.mp hdc with hdc | hdc
        · exact absurd hdc (not_doneOrCached_of_noDC (hi.2.1 hok))
        · exact (hr.2.2 h).2 sid' hdc

theorem rep_albumAttempts (cfg : Config) (collab : Collab) (track : Track)
    (peers : List PeerResult) :
    ∀ (n : Nat) (s : DLState),
      (∀ d', d' ≠ destOf cfg track →
        fsGet (albumAttempts cfg collab track peers n s).1.fs d' = fsGet s.fs d') ∧
      ((albumAttempts cfg collab track peers n s).2.2 = false →
        ∀ e ∈ (albumAttempts cfg collab track peers n s).2.1, isDC e = false) ∧
      ((albumAttempts cfg collab track peers n s).2.2 = true →
        fileOk cfg (albumAttempts cfg collab track peers n s).1.fs
          (destOf cfg track) = true ∧
        ∀ sid', doneOrCached sid' (albumAttempts cfg collab track peers n s).2.1 →
          sid' = track.sid) := by
  intro n
  induction n with
  | zero =>
    intro s
    simp only [albumAttempts]
    refine ⟨fun d' _ => by trivial, ?_, fun h => absurd h (by decide)⟩
    intro _
    exact noDC_cons rfl (by simp)
  | succ n ih =>
    intro s
    have hp := rep_albumTrackPeers cfg collab track peers s
    simp only [albumAttempts]
    by_cases hok : (albumTrackPeers cfg collab track peers s).2.2 = true
    · simp only [hok, if_true]
      refine ⟨hp.1, fun h => absurd h (by decide), fun _ => ⟨(hp.2.2 hok).1, ?_⟩⟩
      intro sid' hdc
      exact (hp.2.2 hok).2 sid' (doc_cons_nonDC hdc rfl)
    · rw [Bool.not_eq_true] at hok
      simp only [hok, Bool.false_eq_true, if_false]
      have hr := ih (albumTrackPeers cfg collab track peers s).1
      refine ⟨fun d' hne => (hr.1 d' hne).trans (hp.1 d' hne), ?_, ?_⟩
      · intro h
        exact noDC_append (noDC_cons rfl (hp.2.1 hok))
          (noDC_cons rfl (hr.2.1 h))
      · intro h
        refine ⟨(hr.2.2 h).1, ?_⟩
        intro sid' hdc
        rcases doneOrCached_append.mp hdc with hdc | hdc
        · exact absurd (doc_cons_nonDC hdc rfl)
            (not_doneOrCached_of_noDC (hp.2.1 hok))
        · exact (hr.2.2 h).2 sid' (doc_cons_nonDC hdc rfl)

theorem rep_searchAlbumTrack (cfg : Config) (collab : Collab) (track : Track)
    (s : DLState) :
    (∀ d', d' ≠ destOf cfg track →
      fsGet (searchAlbumTrack cfg collab track s).1.fs d' = fsGet s.fs d') ∧
    ((searchAlbumTrack cfg collab track s).2.2 = false →
      ∀ e ∈ (searchAlbumTrack cfg collab track s).2.1, isDC e = false) ∧
    ((searchAlbumTrack cfg collab track s).2.2 = true →
      fileOk cfg (searchAlbumTrack cfg collab track s).1.fs
        (destOf cfg track) = true ∧
      ∀ sid', doneOrCached sid' (searchAlbumTrack cfg collab track s).2.1 →
        sid' = track.sid) := by
  have ha := rep_albumAttempts cfg collab track
    (rankPeers (collab.searchFn (sanitize (pyStr track.album ++ ' ' :: track.artist))))
    cfg.maxAttempts s
  simp only [searchAlbumTrack]
  refine ⟨ha.1, ?_, ?_⟩
  · intro h
    exact noDC_cons rfl (ha.2.1 h)
  · intro h
    exact ⟨(ha.2.2 h).1,
      fun sid' hdc => (ha.2.2 h).2 sid' (doc_cons_nonDC hdc rfl)⟩


theorem doc_singleton_failed {sid x : List Char} :
    ¬ doneOrCached sid [Event.reportFailed x] :=
  not_doneOrCached_of_noDC (noDC_cons rfl (by simp))

theorem histOk_insert {cfg : Config} {fs : List (List Char × Nat)}
    {E evs : List Event} {e : Event}
    (h : HistOk cfg fs (E ++ evs)) (he : isDC e = false) :
    HistOk cfg fs (E ++ e :: evs) := by
  intro sid hdc
  apply h sid
  rcases doneOrCached_append.mp hdc with h1 | h1
  · exact doneOrCached_append.mpr (Or.inl h1)
  · exact doneOrCached_append.mpr (Or.inr (doc_cons_nonDC h1 he))

theorem histOk_of_docImp {cfg : Config} {fs : List (List Char × Nat)}
    {L1 L2 : List Event}
    (himp : ∀ sid, doneOrCached sid L1 → doneOrCached sid L2)
    (h : HistOk cfg fs L2) : HistOk cfg fs L1 :=
  fun sid hdc => h sid (himp sid hdc)

theorem rep_playlistTrackStep (cfg : Config) (collab : Collab) (s : DLState)
    (track : Track) (E : List Event) (hE : HistOk cfg s.fs E) :
    HistOk cfg (playlistTrackStep cfg collab s track).1.fs
      (E ++ (playlistTrackStep cfg collab s track).2) := by
  by_cases h0 : fileOk cfg s.fs (destOf cfg track) = true
  · simp only [playlistTrackStep, h0, if_true, List.append_nil]
    exact hE
  · rw [Bool.not_eq_true] at h0
    have hdneq : ∀ sid', doneOrCached sid' E →
        destOfSid cfg sid' ≠ destOf cfg track := by
      intro sid' hdc heq
      have hv := hE sid' hdc
      rw [heq, h0] at hv
      cases hv
    by_cases ha : albTruthy track.album = true
    · have hsa := rep_searchAlbumTrack cfg collab track s
      by_cases hok : (searchAlbumTrack cfg collab track s).2.2 = true
      · simp only [playlistTrackStep, h0, ha, hok, Bool.false_eq_true,
          if_false, if_true]
        intro sid hdc
        rcases doneOrCached_append.mp hdc with hdc | hdc
        · rw [fileOk_congr cfg (hsa.1 _ (hdneq sid hdc))]
          exact hE sid hdc
        · have hsid := (hsa.2.2 hok).2 sid hdc
          subst hsid
          exact (hsa.2.2 hok).1
      · rw [Bool.not_eq_true] at hok
        have hdf := rep_downloadFile cfg collab
          (sanitize (track.name ++ ' ' :: track.artist)) (destOf cfg track)
          (searchAlbumTrack cfg collab track s).1
        by_cases hok2 : (downloadFile cfg collab
            (sanitize (track.name ++ ' ' :: track.artist)) (destOf cfg track)
            (searchAlbumTrack cfg collab track s).1).2.2 = true
        · simp only [playlistTrackStep, h0, ha, hok, hok2, Bool.false_eq_true,
            if_false, if_true]
          intro sid hdc
          rcases doneOrCached_append.mp hdc with hdc | hdc
          · rw [fileOk_congr cfg (hdf.1 _ (hdneq sid hdc)),
              fileOk_congr cfg (hsa.1 _ (hdneq sid hdc))]
            exact hE sid hdc
          · rcases doneOrCached_append.mp hdc with hdc | hdc
            · rcases doneOrCached_append.mp hdc with hdc | hdc
              · exact absurd hdc (not_doneOrCached_of_noDC (hsa.2.1 hok))
              · exact absurd hdc (not_doneOrCached_of_noDC hdf.2.1)
            · have hsid := doc_singleton_done hdc
              subst hsid
              exact hdf.2.2 hok2
        · rw [Bool.not_eq_true] at hok2
          simp only [playlistTrackStep, h0, ha, hok, hok2, Bool.false_eq_true,
            if_false, if_true]
          intro sid hdc
          rcases doneOrCached_append.mp hdc with hdc | hdc
          · rw [fileOk_congr cfg (hdf.1 _ (hdneq sid hdc)),
              fileOk_congr cfg (hsa.1 _ (hdneq sid hdc))]
            exact hE sid hdc
          · rcases doneOrCached_append.mp hdc with hdc | hdc
            · rcases doneOrCached_append.mp hdc with hdc | hdc
              · exact absurd hdc (not_doneOrCached_of_noDC (hsa.2.1 hok))
              · exact absurd hdc (not_doneOrCached_of_noDC hdf.2.1)
            · exact absurd hdc doc_singleton_failed
    · rw [Bool.not_eq_true] at ha
      have hdf := rep_downloadFile cfg collab
        (sanitize (track.name ++ ' ' :: track.artist)) (destOf cfg track) s
      by_cases hok2 : (downloadFile cfg collab
          (sanitize (track.name ++ ' ' :: track.artist)) (destOf cfg track)
          s).2.2 = true
      · simp only [playlistTrackStep, h0, ha, hok2, Bool.false_eq_true,
          if_false, if_true]
        intro sid hdc
        rcases doneOrCached_append.mp hdc with hdc | hdc
        · rw [fileOk_congr cfg (hdf.1 _ (hdneq sid hdc))]
          exact hE sid hdc
        · rcases doneOrCached_append.mp hdc with hdc | hdc
          · rcases doneOrCached_append.mp hdc with hdc | hdc
            · simp [doneOrCached] at hdc
            · exact absurd hdc (not_doneOrCached_of_noDC hdf.2.1)
          · have hsid := doc_singleton_done hdc
            subst hsid
            exact hdf.2.2 hok2
      · rw [Bool.not_eq_true] at hok2
        simp only [playlistTrackStep, h0, ha, hok2, Bool.false_eq_true,
          if_false, if_true]
        intro sid hdc
        rcases doneOrCached_append.mp hdc with hdc | hdc
        · rw [fileOk_congr cfg (hdf.1 _ (hdneq sid hdc))]
          exact hE sid hdc
        · rcases doneOrCached_append.mp hdc with hdc | hdc
          · rcases doneOrCached_append.mp hdc with hdc | hdc
            · simp [doneOrCached] at hdc
            · exact absurd hdc (not_doneOrCached_of_noDC hdf.2.1)
          · exact absurd hdc doc_singleton_failed

theorem rep_playlistLoop (cfg : Config) (collab : Collab) :
    ∀ (ts : List Track) (s : DLState) (E : List Event),
      HistOk cfg s.fs E →
      HistOk cfg (playlistLoop cfg collab ts s).1.fs
        (E ++ (playlistLoop cfg collab ts s).2) := by
  intro ts
  induction ts with
  | nil =>
    intro s E hE
    simp only [playlistLoop, List.append_nil]
    exact hE
  | cons t ts ih =>
    intro s E hE
    simp only [playlistLoop]
    rw [← List.append_assoc]
    exact ih (playlistTrackStep cfg collab s t).1
      (E ++ (playlistTrackStep cfg collab s t).2)
      (rep_playlistTrackStep cfg collab s t E hE)

theorem rep_downloadPlaylist (cfg : Config) (collab : Collab)
    (name : List Char) (ts : List Track) (s : DLState) (E : List Event)
    (hE : HistOk cfg s.fs E) :
    HistOk cfg (downloadPlaylist cfg collab name ts s).1.fs
      (E ++ (downloadPlaylist cfg collab name ts s).2) := by
  by_cases hg : name ∈ s.handledPlaylists
  · simp only [downloadPlaylist, if_pos hg, List.append_nil]
    exact hE
  · simp only [downloadPlaylist, if_neg hg]
    exact rep_playlistLoop cfg collab ts _ E hE

theorem rep_albumVisit (cfg : Config) (collab : Collab) (user file : List Char)
    (t : Track) (s : DLState) (E : List Event) (hE : HistOk cfg s.fs E) :
    HistOk cfg (albumVisit cfg collab user file t s).1.fs
      (E ++ (albumVisit cfg collab user file t s).2.1) := by
  by_cases hc : fileOk cfg s.fs (destOf cfg t) = true
  · simp only [albumVisit, hc, if_true]
    intro sid hdc
    rcases doneOrCached_append.mp hdc with hdc | hdc
    · exact hE sid hdc
    · have hsid := doc_singleton_cached hdc
      subst hsid
      exact hc
  · rw [Bool.not_eq_true] at hc
    have hdneq : ∀ sid', doneOrCached sid' E →
        destOfSid cfg sid' ≠ destOf cfg t := by
      intro sid' hdc heq
      have hv := hE sid' hdc
      rw [heq, hc] at hv
      cases hv
    have hd := frame_doTransfer cfg collab user file (destOf cfg t) s
    by_cases hok : (doTransfer cfg collab user file (destOf cfg t) s).2.2 = true
    · simp only [albumVisit, hc, Bool.false_eq_true, if_false, hok, if_true]
      intro sid hdc
      rcases doneOrCached_append.mp hdc with hdc | hdc
      · rw [fileOk_congr cfg (hd.1 _ (hdneq sid hdc))]
        exact hE sid hdc
      · rcases doneOrCached_append.mp hdc with hdc | hdc
        · exact absurd hdc
            (not_doneOrCached_of_noDC (noDC_doTransfer cfg collab user file _ s))
        · have hsid := doc_singleton_done hdc
          subst hsid
          exact hd.2 hok
    · rw [Bool.not_eq_true] at hok
      simp only [albumVisit, hc, Bool.false_eq_true, if_false, hok]
      intro sid hdc
      rcases doneOrCached_append.mp hdc with hdc | hdc
      · rw [fileOk_congr cfg (hd.1 _ (hdneq sid hdc))]
        exact hE sid hdc
      · rcases doneOrCached_append.mp hdc with hdc | hdc
        · exact absurd hdc
            (not_doneOrCached_of_noDC (noDC_doTransfer cfg collab user file _ s))
        · exact absurd hdc doc_singleton_failed

theorem rep_visitTracks (cfg : Config) (collab : Collab) (user file : List Char) :
    ∀ (n : Nat) (suffix acc : List Track) (s : DLState) (E : List Event),
      suffix.length ≤ n → HistOk cfg s.fs E →
      HistOk cfg (visitTracks cfg collab user file acc suffix s).1.fs
        (E ++ (visitTracks cfg collab user file acc suffix s).2.1) := by
  intro n
  induction n with
  | zero =>
    intro suffix acc s E hlen hE
    cases suffix with
    | nil =>
      simp only [visitTracks, List.append_nil]
      exact hE
    | cons t rest => simp at hlen
  | succ n ih =>
    intro suffix acc s E hlen hE
    cases suffix with
    | nil =>
      simp only [visitTracks, List.append_nil]
      exact hE
    | cons t rest =>
      simp only [visitTracks]
      by_cases hm : matchesName t.name file = true
      · simp only [hm, if_true]
        by_cases hr : (albumVisit cfg collab user file t s).2.2 = true
        · simp only [hr, if_true]
          cases rest with
          | nil => exact rep_albumVisit cfg collab user file t s E hE
          | cons u rest' =>
            rw [← List.append_assoc]
            exact ih rest' (acc ++ [u]) _ _ (by simp at hlen ⊢; omega)
              (rep_albumVisit cfg collab user file t s E hE)
        · rw [Bool.not_eq_true] at hr
          simp only [hr, Bool.false_eq_true, if_false]
          rw [← List.append_assoc]
          exact ih rest (acc ++ [t]) _ _ (by simp at hlen ⊢; omega)
            (rep_albumVisit cfg collab user file t s E hE)
      · rw [Bool.not_eq_true] at hm
        simp only [hm, Bool.false_eq_true, if_false]
        exact ih rest (acc ++ [t]) s E (by simp at hlen ⊢; omega) hE

theorem rep_visitItems (cfg : Config) (collab : Collab) (user : List Char) :
    ∀ (items : List (List Char)) (remaining : List Track) (s : DLState)
      (E : List Event), HistOk cfg s.fs E →
      HistOk cfg (visitItems cfg collab user items remaining s).1.fs
        (E ++ (visitItems cfg collab user items remaining s).2.1) := by
  intro items
  induction items with
  | nil =>
    intro remaining s E hE
    simp only [visitItems, List.append_nil]
    exact hE
  | cons f rest ih =>
    intro remaining s E hE
    simp only [visitItems]
    split
    · rw [← List.append_assoc]
      exact ih _ _ _
        (rep_visitTracks cfg collab user f remaining.length remaining [] s E
          (Nat.le_refl _) hE)
    · exact ih remaining s E hE

theorem rep_peerLoop (cfg : Config) (collab : Collab) (missing : List Track) :
    ∀ (ps : List PeerResult) (s : DLState) (E : List Event),
      HistOk cfg s.fs E →
      HistOk cfg (peerLoop cfg collab missing ps s).1.fs
        (E ++ (peerLoop cfg collab missing ps s).2.1) := by
  intro ps
  induction ps with
  | nil =>
    intro s E hE
    simp only [peerLoop, List.append_nil]
    exact hE
  | cons p ps ih =>
    intro s E hE
    simp only [peerLoop]
    split
    · exact rep_visitItems cfg collab p.username p.sharedItems missing s E hE
    · rw [← List.append_assoc]
      exact ih _ _
        (rep_visitItems cfg collab p.username p.sharedItems missing s E hE)

theorem rep_fallbackLoop (cfg : Config) (collab : Collab) :
    ∀ (ts : List Track) (s : DLState) (E : List Event),
      HistOk cfg s.fs E →
      HistOk cfg (fallbackLoop cfg collab ts s).1.fs
        (E ++ (fallbackLoop cfg collab ts s).2) := by
  intro ts
  induction ts with
  | nil =>
    intro s E hE
    simp only [fallbackLoop, List.append_nil]
    exact hE
  | cons t ts ih =>
    intro s E hE
    simp only [fallbackLoop]
    rw [← List.append_assoc]
    exact ih _ _ (rep_downloadPlaylist cfg collab iafName [t] s E hE)

theorem rep_downloadAlbum (cfg : Config) (collab : Collab)
    (album : Option (List Char)) (artist : List Char) (tracks : List Track)
    (s : DLState) (E : List Event) (hE : HistOk cfg s.fs E) :
    HistOk cfg (downloadAlbum cfg collab album artist tracks s).1.fs
      (E ++ (downloadAlbum cfg collab album artist tracks s).2) := by
  by_cases hg : album ∈ s.handledAlbums
  · simp only [downloadAlbum, if_pos hg, List.append_nil]
    exact hE
  · simp only [downloadAlbum, if_neg hg]
    split
    · simp only [List.append_nil]
      exact hE
    · split
      · exact histOk_insert (rep_peerLoop cfg collab _ _ _ E hE) rfl
      · refine histOk_of_docImp ?_ (rep_fallbackLoop cfg collab _ _ _
          (rep_peerLoop cfg collab _ _ _ E hE))
        intro sid hdc
        rcases doneOrCached_append.mp hdc with h1 | h1
        · exact doneOrCached_append.mpr
            (Or.inl (doneOrCached_append.mpr (Or.inl h1)))
        · rcases doneOrCached_append.mp h1 with h2 | h2
          · exact doneOrCached_append.mpr
              (Or.inl (doneOrCached_append.mpr (Or.inr (doc_cons_nonDC h2 rfl))))
          · exact doneOrCached_append.mpr (Or.inr (doc_cons_nonDC h2 rfl))

theorem rep_albumPhase (cfg : Config) (collab : Collab) (tracks : List Track) :
    ∀ (ks : List (Option (List Char))) (s : DLState) (E : List Event),
      HistOk cfg s.fs E →
      HistOk cfg (albumPhase cfg collab tracks ks s).1.fs
        (E ++ (albumPhase cfg collab tracks ks s).2) := by
  intro ks
  induction ks with
  | nil =>
    intro s E hE
    simp only [albumPhase, List.append_nil]
    exact hE
  | cons k ks ih =>
    intro s E hE
    simp only [albumPhase]
    split
    · rw [← List.append_assoc, List.append_nil]
      exact ih s E hE
    · rw [← List.append_assoc]
      exact ih _ _ (rep_downloadAlbum cfg collab k _ _ s E hE)

theorem rep_playlistPhase (cfg : Config) (collab : Collab) (tracks : List Track) :
    ∀ (ks : List (List Char)) (s : DLState) (E : List Event),
      HistOk cfg s.fs E →
      HistOk cfg (playlistPhase cfg collab tracks ks s).1.fs
        (E ++ (playlistPhase cfg collab tracks ks s).2) := by
  intro ks
  induction ks with
  | nil =>
    intro s E hE
    simp only [playlistPhase, List.append_nil]
    exact hE
  | cons k ks ih =>
    intro s E hE
    simp only [playlistPhase]
    rw [← List.append_assoc]
    exact ih _ _ (rep_downloadPlaylist cfg collab k _ s E hE)

/-- C4: in any full run (arbitrary collaborator, arbitrary catalog and
initial filesystem), every track that was reported `Completed` or
`CompletedCached` has, at the end of the run, a destination file of size
at least the configured minimum (`min_filesize`, default 1000 in
`main`). -/
theorem run_reportedImpliesValid (outdir ext : List Char) (collab : Collab)
    (tracks : List Track) (fs0 : List (List Char × Nat)) (sid : List Char)
    (hdc : doneOrCached sid (mainRun outdir ext collab tracks fs0).2) :
    fileOk (mainConfig outdir ext) (mainRun outdir ext collab tracks fs0).1.fs
      (destOfSid (mainConfig outdir ext) sid) = true := by
  have h0 : HistOk (mainConfig outdir ext)
      (DLState.mk fs0 [] []).fs ([] : List Event) := by
    intro sid' hdc'
    rcases hdc' with hm | hm <;> simp at hm
  have h1 := rep_albumPhase (mainConfig outdir ext) collab tracks
    (albumKeys tracks) ⟨fs0, [], []⟩ [] h0
  have h2 := rep_playlistPhase (mainConfig outdir ext) collab tracks
    (playlistKeys tracks)
    (albumPhase (mainConfig outdir ext) collab tracks (albumKeys tracks)
      ⟨fs0, [], []⟩).1 _ h1
  rw [List.nil_append] at h2
  exact h2 sid hdc

/-- Witness for C4: with the succeeding collaborator the dual-membership
track is reported done and its destination file is valid at the end. -/
theorem run_reportedImpliesValid_witness :
    doneOrCached tDual.sid
      (mainRun ['o', 'u', 't'] ['m', 'p', '3'] collabOK [tDual] []).2 ∧
    fileOk (mainConfig ['o', 'u', 't'] ['m', 'p', '3'])
      (mainRun ['o', 'u', 't'] ['m', 'p', '3'] collabOK [tDual] []).1.fs
      (destOfSid (mainConfig ['o', 'u', 't'] ['m', 'p', '3']) tDual.sid) = true :=
  ⟨Or.inl (by decide),
    run_reportedImpliesValid ['o', 'u', 't'] ['m', 'p', '3'] collabOK [tDual]
      [] tDual.sid (Or.inl (by decide))⟩

end SlskDl
